import Mathlib

/-!
# Verification of the cursor paginator (`cursor_paginator.ts`)

A shallow embedding of the cursor-based pagination core of the
`adonisjs-cursor-paginator` package, together with proofs and refutations of
the specification's claims about it.

Modelling conventions:

* Scalar row values are modelled by `Value` (JS `undefined`, `null`,
  booleans, numbers, strings).  JS numbers are modelled as integers; the
  claims under verification never depend on non-integral numbers.
* A row (`RowT`) is an association list from column names to values, and
  `rowGet` models JS property access `item[column]` (absent key ↦ `undefined`).
* JS objects built by `convertOrderByToColumns` are modelled as
  insertion-ordered association lists, which matches JS object key order for
  ordinary (non array-index-like) column identifiers.
* The external data store is modelled as a deterministic row source: it
  filters the dataset by the builder's where-conditions, sorts it by the
  builder's order-by statements (a total comparison on `Value`), and returns
  the first `LIMIT` rows.  `Builder` carries exactly the query-builder state
  the source reads and mutates: order-by statements, where-conditions and
  the limit.
* The cursor string is base64 of `JSON.stringify` of the cursor object, and
  `JSON.parse` of base64-decode on the way in.  Since base64 and JSON
  stringification of a JSON tree round-trip exactly, the string layer is
  modelled by the JSON tree itself (`Json`); a caller-supplied cursor string
  is abstracted by `CursorArg`: absent (`none`), the empty string (`empty`,
  falsy in JS), a non-empty string on which base64+`JSON.parse` fails
  (`mal`), or one that parses to a JSON tree (`json j`).  What
  `JSON.stringify` does to the JS values stored in a row (e.g. to `Date` /
  luxon `DateTime` timestamps) is modelled explicitly for the codec claims
  via `JsVal`.
-/

set_option linter.unnecessarySeqFocus false

namespace CursorPag

/-! ## JSON trees (the image of `JSON.parse`) -/

inductive Json where
  | null
  | bool (b : Bool)
  | num (n : Int)
  | str (s : String)
  | arr (elems : List Json)
  | obj (fields : List (String × Json))

/-- JS truthiness of a parsed JSON value (`null`, `false`, `0`, `""` are
falsy; arrays and objects are truthy). -/
def jsTruthy : Json → Bool
  | .null => false
  | .bool b => b
  | .num n => decide (n ≠ 0)
  | .str s => decide (s ≠ "")
  | .arr _ => true
  | .obj _ => true

/-- JS property access `j[name]` on a parsed JSON value: `undefined`
(`none`) unless `j` is an object with the field.  (`JSON.parse` output has
unique keys for our purposes.) -/
def Json.getField : Json → String → Option Json
  | .obj fields, name => fields.lookup name
  | _, _ => none

/-! ## Scalar values as the store sees them -/

inductive Value where
  | vundef
  | vnull
  | vbool (b : Bool)
  | vnum (n : Int)
  | vstr (s : String)
deriving DecidableEq, Repr

/-- `JSON.stringify`'s treatment of a scalar JS value (inside an array):
`undefined` becomes `null`; the other scalars map to their JSON forms. -/
def Value.toJson : Value → Json
  | .vundef => .null
  | .vnull => .null
  | .vbool b => .bool b
  | .vnum n => .num n
  | .vstr s => .str s

/-- The scalar JS value produced by `JSON.parse` for a scalar JSON tree;
arrays and objects are not scalars (`none`; binding them in a where-clause
is a query-builder error). -/
def Json.toValue : Json → Option Value
  | .null => some .vnull
  | .bool b => some (.vbool b)
  | .num n => some (.vnum n)
  | .str s => some (.vstr s)
  | .arr _ => none
  | .obj _ => none

/-- Constructor rank, used to totalise the store's comparison across value
types. -/
def Value.rank : Value → Nat
  | .vundef => 0
  | .vnull => 1
  | .vbool _ => 2
  | .vnum _ => 3
  | .vstr _ => 4

/-- The store's total comparison on scalar values: by type rank, then by the
natural order within booleans, numbers and strings.  (The claims only ever
compare values produced by one column, so any linear order consistent with
the per-type orders is a faithful model of the store's `<`/`>`.) -/
def Value.le (a b : Value) : Bool :=
  match a, b with
  | .vbool x, .vbool y => !x || y
  | .vnum x, .vnum y => decide (x ≤ y)
  | .vstr x, .vstr y => decide (x ≤ y)
  | _, _ => decide (a.rank ≤ b.rank)

/-- Strict comparison derived from `Value.le`. -/
def Value.lt (a b : Value) : Bool :=
  !(Value.le b a)

/-! ## Query-builder data model -/

inductive Direction where
  | asc
  | desc
deriving DecidableEq, Repr

/-- An `orderByBasic` statement of the underlying query builder
(`{column, direction}` as recovered by `extractOrderByClauses`). -/
structure OrderByClause where
  column : String
  direction : Direction
deriving DecidableEq, Repr

/-- A record as a JS object mapping column names to values of type `α`. -/
abbrev RowT' (α : Type) := List (String × α)

/-- A fetched record: JS object mapping column names to scalar values. -/
abbrev RowT := RowT' Value

/-- JS property access `item[column]` (absent property is `undefined`). -/
def rowGet (item : RowT) (column : String) : Value :=
  (item.lookup column).getD Value.vundef

/-- The query-builder state the pagination core reads and mutates: the
order-by statements (grouping `order`), the where-conditions, and the
limit. -/
structure Builder where
  orders : List OrderByClause
  filters : List (RowT → Bool)
  limitN : Option Int

/-- Port of `extractOrderByClauses`: read the builder's order-by statements. -/
def extractOrderByClauses (query : Builder) : List OrderByClause :=
  query.orders

/-- `query.orderBy(column, direction)`: append one order-by statement. -/
def Builder.orderBy (query : Builder) (column : String) (direction : Direction) : Builder :=
  { query with orders := query.orders ++ [⟨column, direction⟩] }

/-- Port of `clearOrderByStatements`: drop every statement with grouping
`order`. -/
def clearOrderByStatements (query : Builder) : Builder :=
  { query with orders := [] }

/-- Port of `applyOrderBy`: append each clause, flipping its direction when
`reverse` is set. -/
def applyOrderBy (query : Builder) (orderByClauses : List OrderByClause)
    (reverse : Bool) : Builder :=
  orderByClauses.foldl
    (fun q clause =>
      let direction :=
        if reverse then
          (if clause.direction = .asc then Direction.desc else Direction.asc)
        else clause.direction
      q.orderBy clause.column direction)
    query

/-- The columns configuration: a JS object `{column: direction}` modelled as
an insertion-ordered association list (JS objects keep the first-insertion
position of a key and later assignments overwrite its value in place). -/
abbrev TColumns := List (String × Direction)

/-- One JS property assignment `acc[column] = direction`. -/
def objAssign (acc : TColumns) (column : String) (direction : Direction) : TColumns :=
  if acc.any (fun p => p.1 = column) then
    acc.map (fun p => if p.1 = column then (column, direction) else p)
  else
    acc ++ [(column, direction)]

/-- Port of `convertOrderByToColumns`: `reduce` the clauses into a
`{column: direction}` object. -/
def convertOrderByToColumns (orderByClauses : List OrderByClause) : TColumns :=
  orderByClauses.foldl (fun acc clause => objAssign acc clause.column clause.direction) []

/-! ## Cursor codec -/

/-- Port of `genCursor`, for an arbitrary JS scalar type `α` with
stringification `toJ` (`Object.keys(columns).map((column) => item[column])`,
wrapped with the flag and serialised; base64+`JSON.stringify` of the
resulting tree is injective, so the cursor string is modelled by the tree). -/
def genCursorWith {α : Type} (toJ : α → Json) (get : RowT' α → String → α)
    (columns : TColumns) (item : RowT' α) (pointToNext : Bool) : Json :=
  Json.obj
    [("data", Json.arr (columns.map (fun p => toJ (get item p.1)))),
     ("point_to_next", Json.bool pointToNext)]

/-- `genCursor` at the store's value type. -/
def genCursor (columns : TColumns) (item : RowT) (pointToNext : Bool) : Json :=
  genCursorWith Value.toJson rowGet columns item pointToNext

/-! ## Predicate builder -/

/-- Port of `applyCursorConditions`: the grouped where-condition the
recursion pushes onto the query, as a row predicate.  Each level produces
`(strict inequality) OR (equality AND next level)`, where `orWhere`
followed by `where` groups as `strict OR (eq AND rest)` by SQL precedence,
and the equality branch is only emitted while `cursor.data` is non-empty
after the `shift` (`if (cursor.data.length > 0)`).  The recursion consumes
`Object.keys(columns)[0]` and deletes it, i.e. walks the column list in
order.  The fallback arm is unreachable in the modelled calls: the code
only reaches it by reading `Object.keys(columns)[0]` of an exhausted
object, which makes the query builder throw (see `cursorPaginate`, which
raises `typeErr` for an over-long cursor before building the predicate). -/
def applyCursorConditions (pointToNext : Bool) :
    TColumns → List Value → RowT → Bool
  | (column, direction) :: columns, value :: rest, row =>
    let x := rowGet row column
    let strict :=
      if pointToNext then
        (if direction = .asc then Value.lt value x else Value.lt x value)
      else
        (if direction = .asc then Value.lt x value else Value.lt value x)
    strict ||
      (decide (rest ≠ []) &&
        (decide (x = value) && applyCursorConditions pointToNext columns rest row))
  | _, _, _ => false

/-! ## The row source -/

/-- Whether row `a` sorts no later than row `b` under one order-by clause. -/
def clauseLe (clause : OrderByClause) (a b : RowT) : Bool :=
  match clause.direction with
  | .asc => (rowGet a clause.column).le (rowGet b clause.column)
  | .desc => (rowGet b clause.column).le (rowGet a clause.column)

/-- Lexicographic comparison of rows under a list of order-by clauses, as
the store's ORDER BY evaluates it. -/
def rowLe (orders : List OrderByClause) (a b : RowT) : Bool :=
  match orders with
  | [] => true
  | clause :: rest =>
    if rowGet a clause.column = rowGet b clause.column then rowLe rest a b
    else clauseLe clause a b

/-- The store's ORDER BY: sort rows by the lexicographic clause
comparison. -/
def sortRows (orders : List OrderByClause) (l : List RowT) : List RowT :=
  List.insertionSort (fun a b => rowLe orders a b = true) l

/-- The data source: filter by the where-conditions, sort by the order-by
statements, return the first `n` rows.  (A deterministic model of the
store; ties are broken by dataset position.) -/
def runFetch (db : List RowT) (query : Builder) (n : Nat) : List RowT :=
  (sortRows query.orders (db.filter (fun r => query.filters.all (fun f => f r)))).take n

/-! ## The paginate function -/

/-- Errors a `cursorPaginate` call can surface instead of a page.
`parseErr` models the exception of `JSON.parse` on a string that is not
valid (base64 of) JSON; `typeErr` models a TypeError thrown while the call
manipulates a malformed intermediate value (e.g. `cursor.data.shift()` on a
non-array, or `genCursor` on `items[items.length - 1]` of an empty
array). -/
inductive PErr where
  | parseErr
  | typeErr
deriving DecidableEq, Repr

/-- The `CursorPaginator` result: items plus optional next/prev cursor
strings (cursor strings modelled by their JSON trees). -/
structure CursorPage where
  items : List RowT
  nextCursor : Option Json
  prevCursor : Option Json

/-- The caller-supplied cursor argument, quotiented by what the code can
observe of the string: absent (`null`/`undefined`), the empty string
(falsy, never parsed), a non-empty string on which base64+`JSON.parse`
throws, or a non-empty string parsing to the JSON tree `j`. -/
inductive CursorArg where
  | none
  | empty
  | mal
  | json (j : Json)

/-- JS truthiness of the cursor argument (`cursor` in the source): only
`null`/`undefined` and `""` are falsy. -/
def cursorTruthy : CursorArg → Bool
  | .none => false
  | .empty => false
  | .mal => true
  | .json _ => true

/-- `JSON.parse(Buffer.from(cursor, 'base64').toString('utf-8'))` for a
truthy cursor argument, `null` otherwise. -/
def parseCursor : CursorArg → Except PErr (Option Json)
  | .none => .ok Option.none
  | .empty => .ok Option.none
  | .mal => .error .parseErr
  | .json j => .ok (some j)

/-- Reading `cursorData.data` and `cursorData.point_to_next` off the parsed
JSON, as `applyCursorConditions` and the assembly branches do: `data` must
be an array of scalars or `cursor.data.shift()` / the where-binding throws
(`typeErr`); `point_to_next` is any field, used only for its truthiness. -/
def shapeCursor (j : Json) : Except PErr (List Value × Bool) :=
  match j.getField "data" with
  | some (Json.arr elems) =>
    match elems.mapM Json.toValue with
    | some data =>
      .ok (data, ((j.getField "point_to_next").map jsTruthy).getD false)
    | Option.none => .error .typeErr
  | _ => .error .typeErr

/-- The page-assembly tail of `createPaginateFunction` (source lines
154-201), after the fetch returned `items`; `hasCursor` is the truthiness
of the cursor argument and `shaped` is the decoded cursor when it was
truthy JSON (`cloneCursorData` survives only as `point_to_next` here).  A
falsy decoded cursor (`cursorData` = JSON `null`, `false`, `0`, `""`) falls
through every branch to the bare `CursorPaginator(items)` at line 201. -/
def assemblePage (columns : TColumns) (limit : Int) (hasCursor : Bool)
    (shaped : Option (List Value × Bool)) (items : List RowT) :
    Except PErr CursorPage :=
  match items with
  | [] => .ok ⟨[], Option.none, Option.none⟩
  | it0 :: rest =>
    if ((it0 :: rest).length : Int) ≤ limit then
      if hasCursor = false then
        .ok ⟨it0 :: rest, Option.none, Option.none⟩
      else
        match shaped with
        | some (_, true) =>
          .ok ⟨it0 :: rest, Option.none, some (genCursor columns it0 false)⟩
        | some (_, false) =>
          let ritems := (it0 :: rest).reverse
          .ok ⟨ritems, some (genCursor columns (ritems.getLast?.getD it0) true),
               Option.none⟩
        | Option.none =>
          .ok ⟨it0 :: rest, Option.none, Option.none⟩
    else
      let popped := (it0 :: rest).dropLast
      let final :=
        match shaped with
        | some (_, false) => popped.reverse
        | _ => popped
      match final with
      | [] => .error .typeErr
      | f0 :: frest =>
        let nextCursorStr := genCursor columns ((f0 :: frest).getLast?.getD f0) true
        if hasCursor = false then
          .ok ⟨f0 :: frest, some nextCursorStr, Option.none⟩
        else
          .ok ⟨f0 :: frest, some nextCursorStr, some (genCursor columns f0 false)⟩

/-- The cursor-condition step of the paginate function (source lines
133-142): parse result in hand, push `applyCursorConditions` as a
where-group when both the cursor string and the parsed value are truthy.
This is where a cursor whose `data` is not an array of scalars makes the
call throw (`cursor.data.shift()` / the where-binding), and where a cursor
holding more values than there are columns drives the recursion into
`Object.keys(columns)[0] === undefined`, which also makes the query builder
throw — in every case before the fetch. -/
def applyCursorStep (query : Builder) (columns : TColumns)
    (cursorData : Option Json) (hasCursor : Bool) :
    Except PErr (Builder × Option (List Value × Bool)) :=
  match cursorData with
  | some j =>
    if hasCursor && jsTruthy j then
      match shapeCursor j with
      | .error e => .error e
      | .ok (data, pointToNext) =>
        if columns.length < data.length then
          .error .typeErr
        else
          .ok ({ query with
                  filters := query.filters ++
                    [applyCursorConditions pointToNext columns data] },
               some (data, pointToNext))
    else
      .ok (query, Option.none)
  | Option.none => .ok (query, Option.none)

/-- Port of the function returned by `createPaginateFunction`.  Returns the
page together with the final state of the caller's query builder (which the
source mutates in place).  Stage by stage, mirroring the source: default
ordering `id desc` injected when the builder has no order-by;
`JSON.parse` of a truthy cursor argument (throws on a malformed string
before anything else happens); the cursor-condition step
(`applyCursorStep`); order-by statements cleared and re-applied, flipped
when the cursor points backward; `limit(limit + 1)`; the single fetch
against the row source; page assembly (`assemblePage`). -/
def cursorPaginate (db : List RowT) (query : Builder) (limit : Int)
    (cursor : CursorArg) : Except PErr (CursorPage × Builder) :=
  let orderByClauses0 := extractOrderByClauses query
  let query1 :=
    if orderByClauses0.isEmpty then query.orderBy "id" .desc else query
  let orderByClauses :=
    if orderByClauses0.isEmpty then [(⟨"id", .desc⟩ : OrderByClause)]
    else orderByClauses0
  let columns := convertOrderByToColumns orderByClauses
  match parseCursor cursor with
  | .error e => .error e
  | .ok cursorData =>
    match applyCursorStep query1 columns cursorData (cursorTruthy cursor) with
    | .error e => .error e
    | .ok (query2, shaped) =>
      let shouldReverse :=
        match shaped with
        | some (_, pointToNext) => !pointToNext
        | Option.none => false
      let query3 :=
        applyOrderBy (clearOrderByStatements query2) orderByClauses shouldReverse
      let query4 := { query3 with limitN := some (limit + 1) }
      let items := runFetch db query4 (limit + 1).toNat
      (assemblePage columns limit (cursorTruthy cursor) shaped items).map
        (fun page => (page, query4))

/-! ## Keys and the lexicographic tuple order -/

/-- The tuple of a row's values at the order-by columns, in clause order. -/
def keyOf (orders : List OrderByClause) (r : RowT) : List Value :=
  orders.map (fun clause => rowGet r clause.column)

/-- The directions of the order-by clauses, in clause order. -/
def dirs (orders : List OrderByClause) : List Direction :=
  orders.map (fun clause => clause.direction)

/-- Whether `a` sorts strictly earlier than `b` in direction `d`. -/
def dirLt (d : Direction) (a b : Value) : Bool :=
  match d with
  | .asc => a.lt b
  | .desc => b.lt a

/-- Strict lexicographic comparison of value tuples under per-column
directions. -/
def keyLt : List Direction → List Value → List Value → Bool
  | d :: ds, x :: xs, y :: ys => dirLt d x y || (decide (x = y) && keyLt ds xs ys)
  | _, _, _ => false

/-! ## Sorting facts -/

/-- Strict ordering of rows: the key tuples compare strictly. -/
def rowLtK (orders : List OrderByClause) (a b : RowT) : Prop :=
  keyLt (dirs orders) (keyOf orders a) (keyOf orders b) = true

/-- The dataset keys are pairwise distinct (the amended claims' uniqueness
hypothesis). -/
def nodupKeys (orders : List OrderByClause) (l : List RowT) : Prop :=
  (l.map (keyOf orders)).Nodup

/-! ## Reversed ordering -/

/-- Direction flip, as `applyOrderBy` computes it. -/
def flipDir (d : Direction) : Direction :=
  if d = .asc then .desc else .asc

/-- An order-by clause with its direction flipped. -/
def flipClause (clause : OrderByClause) : OrderByClause :=
  ⟨clause.column, flipDir clause.direction⟩

/-! ## The logical dataset of a call -/

/-- The rows the caller's own where-conditions select. -/
def dataset (db : List RowT) (filters : List (RowT → Bool)) : List RowT :=
  db.filter (fun r => filters.all (fun f => f r))

/-! ## Closed forms of the three kinds of pages -/

/-- The page a cursorless call produces, as a function of the sorted
dataset. -/
def pageOfNone (columns : TColumns) (limit : Int) (S : List RowT) : CursorPage :=
  if (S.length : Int) ≤ limit then ⟨S, Option.none, Option.none⟩
  else
    ⟨S.take limit.toNat,
      some (genCursor columns ((S.take limit.toNat).getLast?.getD []) true),
      Option.none⟩

/-- The page a forward-cursor call produces, as a function of the rows
after the boundary. -/
def pageOfFwd (columns : TColumns) (limit : Int) (B : List RowT) : CursorPage :=
  if B = [] then ⟨[], Option.none, Option.none⟩
  else if (B.length : Int) ≤ limit then
    ⟨B, Option.none, some (genCursor columns (B.head?.getD []) false)⟩
  else
    ⟨B.take limit.toNat,
      some (genCursor columns ((B.take limit.toNat).getLast?.getD []) true),
      some (genCursor columns (B.head?.getD []) false)⟩

/-- The page a backward-cursor call produces, as a function of the rows
before the boundary. -/
def pageOfBwd (columns : TColumns) (limit : Int) (A : List RowT) : CursorPage :=
  if A = [] then ⟨[], Option.none, Option.none⟩
  else if (A.length : Int) ≤ limit then
    ⟨A, some (genCursor columns (A.getLast?.getD []) true), Option.none⟩
  else
    ⟨A.drop (A.length - limit.toNat),
      some (genCursor columns (A.getLast?.getD []) true),
      some (genCursor columns
        ((A.drop (A.length - limit.toNat)).head?.getD []) false)⟩

/-! ## C1: the boundary predicate against the spec's recursive rule -/

/-- The strict per-column inequality of spec §4.2: forward with `asc` means
`col > v`, forward with `desc` means `col < v`; backward flips both. -/
def specStrict (pointsToNext : Bool) (d : Direction)
    (colVal boundary : Value) : Bool :=
  if pointsToNext then
    (if d = .asc then boundary.lt colVal else colVal.lt boundary)
  else
    (if d = .asc then colVal.lt boundary else boundary.lt colVal)

/-- Modelled from the spec (§4.2, the claim's words): for column `i`, the
row satisfies the strict inequality determined by that column's direction,
OR it equals the boundary value at column `i` and the remaining columns
satisfy the same rule recursively; for the last column the equality branch
is omitted.  Backward semantics is the same structure with every inequality
flipped (`specStrict`). -/
def specBoundary (pointsToNext : Bool) :
    List (String × Direction) → List Value → RowT → Bool
  | [(c, d)], [v], r => specStrict pointsToNext d (rowGet r c) v
  | (c, d) :: cd2 :: cols, v :: v2 :: vs, r =>
    specStrict pointsToNext d (rowGet r c) v ||
      (decide (rowGet r c = v) && specBoundary pointsToNext (cd2 :: cols) (v2 :: vs) r)
  | _, _, _ => false

/-! ## C3: the cursor codec across JS scalar types -/

/-- A scalar JS value as a row may hold it before serialisation: a
JSON-representable scalar, or a timestamp object (JS `Date` / luxon
`DateTime`), which `JSON.stringify` serialises through `toJSON()` as its
ISO-8601 string. -/
inductive JsVal where
  | scalar (v : Value)
  | date (iso : String)
deriving DecidableEq, Repr

/-- `JSON.stringify`'s conversion of a row value. -/
def JsVal.toJson : JsVal → Json
  | .scalar v => v.toJson
  | .date iso => .str iso

/-- The JS value `JSON.parse` materialises for a JSON tree: parsing never
produces a timestamp object, only plain scalars. -/
def Json.toJsVal (j : Json) : Option JsVal :=
  j.toValue.map JsVal.scalar

/-- Property access `item[column]` on a row of JS values. -/
def jsGet (item : RowT' JsVal) (column : String) : JsVal :=
  (item.lookup column).getD (.scalar .vundef)

/-- `encode(spec, row, b)` — `genCursor` over JS row values
(`Buffer.from(JSON.stringify(cursor)).toString('base64')`; the base64 text
layer is injective on JSON trees and therefore omitted). -/
def encodeCursor (columns : TColumns) (item : RowT' JsVal)
    (pointToNext : Bool) : Json :=
  genCursorWith JsVal.toJson jsGet columns item pointToNext

/-- `decode(cursorString)` — `JSON.parse` of the base64-decoded string,
reading `data` and `point_to_next` exactly as the paginator does. -/
def decodeCursor (j : Json) : Option (List JsVal × Bool) :=
  match j.getField "data" with
  | some (Json.arr elems) =>
    match elems.mapM Json.toJsVal with
    | some data =>
      some (data, ((j.getField "point_to_next").map jsTruthy).getD false)
    | Option.none => Option.none
  | _ => Option.none

/-! ## C9: the caller's builder is mutated in place -/

/-- C9 as the spec states it: a call hands back the caller's query builder
with its order-by statements and where-conditions unchanged. -/
def buildersPreserved (db : List RowT) (query : Builder) (limit : Int)
    (cursor : CursorArg) : Prop :=
  ∀ page qf, cursorPaginate db query limit cursor = .ok (page, qf) →
    qf.orders = query.orders ∧ qf.filters = query.filters

/-! ## C4: the page invariant -/

/-- Rows of the call's logical dataset strictly after `x` in the original
forward ordering. -/
def anyRowBeyond (db : List RowT) (cf : List (RowT → Bool))
    (obc : List OrderByClause) (x : RowT) : Bool :=
  (dataset db cf).any (fun r => keyLt (dirs obc) (keyOf obc x) (keyOf obc r))

/-- Rows of the call's logical dataset strictly before `x` in the original
forward ordering. -/
def anyRowBefore (db : List RowT) (cf : List (RowT → Bool))
    (obc : List OrderByClause) (x : RowT) : Bool :=
  (dataset db cf).any (fun r => keyLt (dirs obc) (keyOf obc r) (keyOf obc x))

/-- C4 as the spec states it, for one call: `items.length ≤ limit`;
`nextCursor` present iff rows exist beyond the last item in the original
forward ordering; `prevCursor` present iff rows exist before the first
item. -/
def pageChecks (db : List RowT) (cf : List (RowT → Bool))
    (obc : List OrderByClause) (limit : Int) (page : CursorPage) : Prop :=
  ((page.items.length : Int) ≤ limit) ∧
  (match page.items.getLast? with
   | some lastIt => page.nextCursor.isSome = anyRowBeyond db cf obc lastIt
   | Option.none => True) ∧
  (match page.items.head? with
   | some firstIt => page.prevCursor.isSome = anyRowBefore db cf obc firstIt
   | Option.none => True)

def pageInvariantHolds (db : List RowT) (obc : List OrderByClause)
    (cf : List (RowT → Bool)) (l0 : Option Int) (limit : Int)
    (cursor : CursorArg) : Prop :=
  match cursorPaginate db ⟨obc, cf, l0⟩ limit cursor with
  | .error _ => True
  | .ok (page, _) => pageChecks db cf obc limit page

/-- Follow the forward chain: call paginate, collect the page's items, and
continue from its `nextCursor` until a page carries none.  `fuel` bounds
the number of pages; `.ok Option.none` means the fuel ran out. -/
def forwardChain (db : List RowT) (query : Builder) (limit : Int) :
    Nat → CursorArg → Except PErr (Option (List RowT))
  | 0, _ => .ok Option.none
  | fuel + 1, cursor =>
    match cursorPaginate db query limit cursor with
    | .error e => .error e
    | .ok (page, _) =>
      match page.nextCursor with
      | Option.none => .ok (some page.items)
      | some c =>
        match forwardChain db query limit fuel (.json c) with
        | .ok (some restItems) => .ok (some (page.items ++ restItems))
        | other => other

/-! ## C5: forward/backward symmetry -/

/-- A page that carries a `nextCursor` is a nonempty contiguous block of
the sorted dataset: its `nextCursor` is generated from its own last item,
rows follow the block, its length respects the limit, and the block either
starts the dataset or holds exactly `limit` items. -/
def blockOf (columns : TColumns) (S : List RowT) (limit : Int)
    (page : CursorPage) : Prop :=
  ∃ pre post x,
    page.items ≠ [] ∧
    S = pre ++ page.items ++ post ∧
    page.items.getLast? = some x ∧
    page.nextCursor = some (genCursor columns x true) ∧
    post ≠ [] ∧
    ((page.items.length : Int) ≤ limit) ∧
    (pre = [] ∨ page.items.length = limit.toNat)


/-! ## Theorems -/

theorem Value.leTotal (a b : Value) : a.le b = true ∨ b.le a = true := by
  cases a <;> cases b <;> simp only [Value.le, Value.rank, decide_eq_true_eq]
  case vbool.vbool x y => cases x <;> cases y <;> simp
  case vnum.vnum x y => exact Int.le_total x y
  case vstr.vstr x y => exact le_total x y
  all_goals omega

theorem Value.leTrans {a b c : Value} (h1 : a.le b = true) (h2 : b.le c = true) :
    a.le c = true := by
  cases a <;> cases b <;> cases c <;>
    simp only [Value.le, Value.rank, decide_eq_true_eq] at *
  case vbool.vbool.vbool x y z =>
    revert h1 h2; cases x <;> cases y <;> cases z <;> simp
  case vnum.vnum.vnum x y z => exact le_trans h1 h2
  case vstr.vstr.vstr x y z => exact le_trans h1 h2
  all_goals omega

theorem Value.leAntisymm {a b : Value} (h1 : a.le b = true) (h2 : b.le a = true) :
    a = b := by
  cases a <;> cases b <;>
    simp only [Value.le, Value.rank, decide_eq_true_eq] at *
  case vbool.vbool x y => revert h1 h2; cases x <;> cases y <;> simp
  case vnum.vnum x y => exact congrArg _ (le_antisymm h1 h2)
  case vstr.vstr x y => exact congrArg _ (le_antisymm h1 h2)
  all_goals omega

theorem Value.leRefl (a : Value) : a.le a = true := by
  rcases Value.leTotal a a with h | h <;> exact h

theorem Value.ltIffNotLe {a b : Value} : a.lt b = true ↔ ¬ b.le a = true := by
  simp [Value.lt]

theorem Value.ltAsymm {a b : Value} (h : a.lt b = true) : ¬ b.lt a = true := by
  rw [Value.ltIffNotLe] at *
  intro h2
  rcases Value.leTotal a b with hh | hh
  · exact h2 hh
  · exact h hh

theorem Value.ltOfLeNe {a b : Value} (h : a.le b = true) (hne : a ≠ b) :
    a.lt b = true := by
  rw [Value.ltIffNotLe]
  intro h2
  exact hne (Value.leAntisymm h h2)

theorem Value.leOfLt {a b : Value} (h : a.lt b = true) : a.le b = true := by
  rw [Value.ltIffNotLe] at h
  rcases Value.leTotal a b with hh | hh
  · exact hh
  · exact absurd hh h

theorem Value.neOfLt {a b : Value} (h : a.lt b = true) : a ≠ b := by
  rintro rfl
  exact (Value.ltIffNotLe.mp h) (Value.leRefl a)

theorem Value.ltTrans {a b c : Value} (h1 : a.lt b = true) (h2 : b.lt c = true) :
    a.lt c = true :=
  Value.ltOfLeNe (Value.leTrans (Value.leOfLt h1) (Value.leOfLt h2))
    (by rintro rfl; exact Value.ltAsymm h1 h2)

theorem Value.ltTrichotomy (a b : Value) :
    a.lt b = true ∨ a = b ∨ b.lt a = true := by
  by_cases hab : a = b
  · exact Or.inr (Or.inl hab)
  rcases Value.leTotal a b with h | h
  · exact Or.inl (Value.ltOfLeNe h hab)
  · exact Or.inr (Or.inr (Value.ltOfLeNe h (Ne.symm hab)))

theorem dirLt_irrefl (d : Direction) (a : Value) : dirLt d a a = false := by
  cases d <;> simp [dirLt, Value.lt, Value.leRefl]

theorem dirLt_asymm {d : Direction} {a b : Value} (h : dirLt d a b = true) :
    dirLt d b a = false := by
  cases d <;> simp only [dirLt] at * <;>
    exact Bool.eq_false_iff.mpr (Value.ltAsymm h)

theorem dirLt_trans {d : Direction} {a b c : Value} (h1 : dirLt d a b = true)
    (h2 : dirLt d b c = true) : dirLt d a c = true := by
  cases d <;> simp only [dirLt] at *
  · exact Value.ltTrans h1 h2
  · exact Value.ltTrans h2 h1

theorem dirLt_of_ne {d : Direction} {a b : Value} (h : a ≠ b) :
    dirLt d a b = true ∨ dirLt d b a = true := by
  rcases Value.ltTrichotomy a b with hh | hh | hh
  · cases d
    · exact Or.inl hh
    · exact Or.inr hh
  · exact absurd hh h
  · cases d
    · exact Or.inr hh
    · exact Or.inl hh

theorem keyLt_irrefl (ds : List Direction) (xs : List Value) :
    keyLt ds xs xs = false := by
  induction ds generalizing xs with
  | nil => cases xs <;> rfl
  | cons d ds ih =>
    cases xs with
    | nil => rfl
    | cons x xs => simp [keyLt, dirLt_irrefl, ih]

theorem keyLt_asymm : ∀ {ds : List Direction} {xs ys : List Value},
    keyLt ds xs ys = true → keyLt ds ys xs = true → False
  | d :: ds, x :: xs, y :: ys, h1, h2 => by
    simp only [keyLt, Bool.or_eq_true, Bool.and_eq_true, decide_eq_true_eq] at h1 h2
    rcases h1 with h1 | ⟨rfl, h1⟩
    · rcases h2 with h2 | ⟨rfl, h2⟩
      · exact absurd h2 (by simp [dirLt_asymm h1])
      · exact absurd h1 (by simp [dirLt_irrefl])
    · rcases h2 with h2 | ⟨-, h2⟩
      · exact absurd h2 (by simp [dirLt_irrefl])
      · exact keyLt_asymm h1 h2

theorem keyLt_trans : ∀ {ds : List Direction} {xs ys zs : List Value},
    keyLt ds xs ys = true → keyLt ds ys zs = true → keyLt ds xs zs = true
  | d :: ds, x :: xs, y :: ys, z :: zs, h1, h2 => by
    simp only [keyLt, Bool.or_eq_true, Bool.and_eq_true, decide_eq_true_eq] at *
    rcases h1 with h1 | ⟨rfl, h1⟩ <;> rcases h2 with h2 | ⟨rfl, h2⟩
    · exact Or.inl (dirLt_trans h1 h2)
    · exact Or.inl h1
    · exact Or.inl h2
    · exact Or.inr ⟨rfl, keyLt_trans h1 h2⟩

theorem keyLt_trichotomy : ∀ {ds : List Direction} {xs ys : List Value},
    xs.length = ds.length → ys.length = ds.length →
    keyLt ds xs ys = true ∨ xs = ys ∨ keyLt ds ys xs = true
  | [], [], [], _, _ => Or.inr (Or.inl rfl)
  | d :: ds, x :: xs, y :: ys, hx, hy => by
    by_cases hxy : x = y
    · subst hxy
      rcases @keyLt_trichotomy ds xs ys
          (by simpa using hx) (by simpa using hy) with h | h | h
      · exact Or.inl (by simp [keyLt, h])
      · exact Or.inr (Or.inl (by rw [h]))
      · exact Or.inr (Or.inr (by simp [keyLt, h]))
    · rcases @dirLt_of_ne d x y hxy with h | h
      · exact Or.inl (by simp [keyLt, h])
      · exact Or.inr (Or.inr (by simp [keyLt, h]))

theorem keyOf_length (orders : List OrderByClause) (r : RowT) :
    (keyOf orders r).length = orders.length := by
  simp [keyOf]

theorem dirs_length (orders : List OrderByClause) :
    (dirs orders).length = orders.length := by
  simp [dirs]

/-- `rowLe` is the complement of the strict lexicographic comparison of the
two rows' key tuples. -/
theorem rowLe_eq_not_keyLt (orders : List OrderByClause) (a b : RowT) :
    rowLe orders a b = !keyLt (dirs orders) (keyOf orders b) (keyOf orders a) := by
  induction orders with
  | nil => rfl
  | cons clause rest ih =>
    simp only [dirs, keyOf, List.map] at ih ⊢
    simp only [rowLe, keyLt]
    by_cases h : rowGet a clause.column = rowGet b clause.column
    · rw [if_pos h, h]
      simp [dirLt_irrefl, ih]
    · rw [if_neg h,
        show decide (rowGet b clause.column = rowGet a clause.column) = false from
          decide_eq_false (fun hh => h hh.symm)]
      cases hd : clause.direction <;>
        simp [clauseLe, hd, dirLt, Value.lt]

/-- The cursor-condition predicate is exactly the strict lexicographic
comparison between the boundary tuple and the row's tuple at the cursor's
columns: rows after the boundary for a forward cursor, rows before it for a
backward one.  (This holds for any relative lengths of the two lists: the
recursion stops at whichever runs out first.) -/
theorem applyCursorConditions_eq_keyLt (pointToNext : Bool) :
    ∀ (columns : TColumns) (vals : List Value) (r : RowT),
      applyCursorConditions pointToNext columns vals r =
        (if pointToNext then
          keyLt (columns.map Prod.snd) vals (columns.map (fun p => rowGet r p.1))
        else
          keyLt (columns.map Prod.snd) (columns.map (fun p => rowGet r p.1)) vals)
  | [], [], r => by cases pointToNext <;> rfl
  | [], v :: vs, r => by cases pointToNext <;> rfl
  | c :: cs, [], r => by cases pointToNext <;> rfl
  | (column, direction) :: cs, v :: vs, r => by
    have ih := applyCursorConditions_eq_keyLt pointToNext cs vs r
    cases vs with
    | nil =>
      cases pointToNext <;> cases hd : direction <;>
        simp [applyCursorConditions, keyLt, dirLt, hd, keyLt_irrefl]
    | cons v2 vs2 =>
      cases pointToNext <;> cases hd : direction <;>
        simp [applyCursorConditions, keyLt, dirLt, hd, ih, eq_comm,
          Bool.and_assoc, Bool.and_left_comm]

theorem rowLe_total (orders : List OrderByClause) (a b : RowT) :
    rowLe orders a b = true ∨ rowLe orders b a = true := by
  rw [rowLe_eq_not_keyLt, rowLe_eq_not_keyLt]
  by_cases h1 : keyLt (dirs orders) (keyOf orders b) (keyOf orders a) = true
  · by_cases h2 : keyLt (dirs orders) (keyOf orders a) (keyOf orders b) = true
    · exact absurd (keyLt_asymm h1 h2) id
    · exact Or.inr (by simp [h2])
  · exact Or.inl (by simp [h1])

theorem rowLe_trans {orders : List OrderByClause} {a b c : RowT}
    (h1 : rowLe orders a b = true) (h2 : rowLe orders b c = true) :
    rowLe orders a c = true := by
  rw [rowLe_eq_not_keyLt] at *
  simp only [Bool.not_eq_true'] at *
  by_contra hca
  simp only [Bool.not_eq_false] at hca
  have hlen : ∀ r : RowT, (keyOf orders r).length = (dirs orders).length := by
    intro r; rw [keyOf_length, dirs_length]
  rcases @keyLt_trichotomy (dirs orders) (keyOf orders c)
      (keyOf orders b) (hlen c) (hlen b) with h | h | h
  · exact absurd h (by simp [h2])
  · rw [h] at hca; exact absurd hca (by simp [h1])
  · rcases @keyLt_trichotomy (dirs orders) (keyOf orders b)
        (keyOf orders a) (hlen b) (hlen a) with g | g | g
    · exact absurd g (by simp [h1])
    · rw [g] at h; exact keyLt_asymm hca h
    · exact keyLt_asymm hca (keyLt_trans g h)

instance instTotalRowLe (orders : List OrderByClause) :
    IsTotal RowT (fun a b => rowLe orders a b = true) :=
  ⟨rowLe_total orders⟩

instance instTransRowLe (orders : List OrderByClause) :
    IsTrans RowT (fun a b => rowLe orders a b = true) :=
  ⟨fun _ _ _ => rowLe_trans⟩

instance instAntisymmRowLtK (orders : List OrderByClause) :
    IsAntisymm RowT (rowLtK orders) :=
  ⟨fun _ _ h1 h2 => (keyLt_asymm h1 h2).elim⟩

theorem sortRows_perm (orders : List OrderByClause) (l : List RowT) :
    List.Perm (sortRows orders l) l :=
  List.perm_insertionSort _ l

theorem sortRows_sorted (orders : List OrderByClause) (l : List RowT) :
    (sortRows orders l).Pairwise (fun a b => rowLe orders a b = true) :=
  List.sorted_insertionSort _ l

theorem nodupKeys_of_perm {orders : List OrderByClause} {l1 l2 : List RowT}
    (hp : List.Perm l1 l2) (h : nodupKeys orders l1) : nodupKeys orders l2 :=
  ((hp.map (keyOf orders)).nodup_iff).mp h

theorem nodupKeys_sublist {orders : List OrderByClause} {l1 l2 : List RowT}
    (hs : List.Sublist l1 l2) (h : nodupKeys orders l2) : nodupKeys orders l1 :=
  (hs.map (keyOf orders)).nodup h

/-- Keys pairwise distinct plus sortedness upgrades to strict pairwise
ordering. -/
theorem pairwise_ltK_of_sorted {orders : List OrderByClause} :
    ∀ {l : List RowT}, l.Pairwise (fun a b => rowLe orders a b = true) →
      nodupKeys orders l → l.Pairwise (rowLtK orders)
  | [], _, _ => List.Pairwise.nil
  | a :: t, hs, hn => by
    rw [List.pairwise_cons] at hs ⊢
    simp only [nodupKeys, List.map, List.nodup_cons] at hn
    refine ⟨fun b hb => ?_, pairwise_ltK_of_sorted hs.2 hn.2⟩
    have hne : keyOf orders a ≠ keyOf orders b := fun he =>
      hn.1 (he ▸ List.mem_map_of_mem (keyOf orders) hb)
    have hle := hs.1 b hb
    rw [rowLe_eq_not_keyLt] at hle
    simp only [Bool.not_eq_true'] at hle
    have hlen : ∀ r : RowT, (keyOf orders r).length = (dirs orders).length := by
      intro r; rw [keyOf_length, dirs_length]
    rcases @keyLt_trichotomy (dirs orders) (keyOf orders a)
        (keyOf orders b) (hlen a) (hlen b) with h | h | h
    · exact h
    · exact absurd h hne
    · exact absurd h (by simp [hle])

theorem sortRows_pairwise_ltK {orders : List OrderByClause} {l : List RowT}
    (hn : nodupKeys orders l) : (sortRows orders l).Pairwise (rowLtK orders) :=
  pairwise_ltK_of_sorted (sortRows_sorted orders l)
    (nodupKeys_of_perm (sortRows_perm orders l).symm hn)

/-- A permutation that is strictly sorted on both sides is an equality. -/
theorem eq_of_perm_pairwise_ltK {orders : List OrderByClause} {l1 l2 : List RowT}
    (hp : List.Perm l1 l2) (h1 : l1.Pairwise (rowLtK orders)) (h2 : l2.Pairwise (rowLtK orders)) :
    l1 = l2 :=
  List.eq_of_perm_of_sorted hp h1 h2

/-- Sorting commutes with filtering (given pairwise-distinct keys). -/
theorem sortRows_filter {orders : List OrderByClause} {l : List RowT}
    (hn : nodupKeys orders l) (p : RowT → Bool) :
    sortRows orders (l.filter p) = (sortRows orders l).filter p := by
  refine @eq_of_perm_pairwise_ltK orders _ _ ?_ ?_ ?_
  · exact (sortRows_perm orders (l.filter p)).trans
      (((sortRows_perm orders l).filter p).symm)
  · exact sortRows_pairwise_ltK (nodupKeys_sublist (List.filter_sublist l) hn)
  · exact List.Pairwise.sublist (List.filter_sublist _) (sortRows_pairwise_ltK hn)

theorem applyOrderBy_eq (l : List OrderByClause) :
    ∀ (query : Builder) (reverse : Bool),
      applyOrderBy query l reverse =
        ⟨query.orders ++ (if reverse then l.map flipClause else l),
         query.filters, query.limitN⟩ := by
  induction l with
  | nil => intro q rev; cases rev <;> simp [applyOrderBy]
  | cons cl rest ih =>
    intro q rev
    obtain ⟨col, dir⟩ := cl
    simp only [applyOrderBy, List.foldl_cons] at ih ⊢
    rw [ih]
    cases rev <;> cases dir <;>
      simp [Builder.orderBy, flipClause, flipDir]

theorem dirLt_flipDir (d : Direction) (a b : Value) :
    dirLt (flipDir d) a b = dirLt d b a := by
  cases d <;> rfl

theorem keyLt_flipDirs : ∀ (ds : List Direction) (xs ys : List Value),
    keyLt (ds.map flipDir) xs ys = keyLt ds ys xs
  | [], xs, ys => by cases xs <;> cases ys <;> rfl
  | d :: ds, [], ys => by cases ys <;> rfl
  | d :: ds, x :: xs, [] => rfl
  | d :: ds, x :: xs, y :: ys => by
    simp [keyLt, dirLt_flipDir, keyLt_flipDirs ds xs ys, eq_comm]

theorem keyOf_map_flipClause (orders : List OrderByClause) (r : RowT) :
    keyOf (orders.map flipClause) r = keyOf orders r := by
  simp [keyOf, flipClause]

theorem dirs_map_flipClause (orders : List OrderByClause) :
    dirs (orders.map flipClause) = (dirs orders).map flipDir := by
  simp [dirs, flipClause]

theorem nodupKeys_map_flipClause {orders : List OrderByClause} {l : List RowT}
    (hn : nodupKeys orders l) : nodupKeys (orders.map flipClause) l := by
  unfold nodupKeys at *
  rwa [show keyOf (orders.map flipClause) = keyOf orders from
    funext (keyOf_map_flipClause orders)]

/-- Sorting under the flipped ordering reverses the sorted list (given
pairwise-distinct keys). -/
theorem sortRows_flip {orders : List OrderByClause} {l : List RowT}
    (hn : nodupKeys orders l) :
    sortRows (orders.map flipClause) l = (sortRows orders l).reverse := by
  refine @eq_of_perm_pairwise_ltK (orders.map flipClause) _ _ ?_ ?_ ?_
  · exact (sortRows_perm _ l).trans
      ((List.reverse_perm (sortRows orders l)).trans (sortRows_perm orders l)).symm
  · exact sortRows_pairwise_ltK (nodupKeys_map_flipClause hn)
  · rw [List.pairwise_reverse]
    refine (sortRows_pairwise_ltK hn).imp ?_
    intro a b h
    show keyLt _ _ _ = true
    rw [dirs_map_flipClause, keyOf_map_flipClause, keyOf_map_flipClause,
      keyLt_flipDirs]
    exact h

/-! ## Boundary filters on a sorted list -/

theorem filter_after_boundary {orders : List OrderByClause} {A B : List RowT}
    {r0 : RowT}
    (hp : (A ++ r0 :: B).Pairwise (rowLtK orders)) :
    (A ++ r0 :: B).filter
        (fun r => keyLt (dirs orders) (keyOf orders r0) (keyOf orders r)) = B := by
  have hparts := List.pairwise_append.mp hp
  have hcons := List.pairwise_cons.mp hparts.2.1
  have hA : A.filter
      (fun r => keyLt (dirs orders) (keyOf orders r0) (keyOf orders r)) = [] :=
    List.filter_eq_nil_iff.mpr (fun a ha => by
      have hlt : rowLtK orders a r0 := hparts.2.2 a ha r0 (List.mem_cons_self _ _)
      simp only [Bool.not_eq_true]
      exact Bool.eq_false_iff.mpr (fun h => keyLt_asymm h hlt))
  have hB : B.filter
      (fun r => keyLt (dirs orders) (keyOf orders r0) (keyOf orders r)) = B :=
    List.filter_eq_self.mpr (fun b hb => hcons.1 b hb)
  rw [List.filter_append, hA, List.nil_append, List.filter_cons,
    show keyLt (dirs orders) (keyOf orders r0) (keyOf orders r0) = false from
      keyLt_irrefl _ _]
  simp [hB]

theorem filter_before_boundary {orders : List OrderByClause} {A B : List RowT}
    {r0 : RowT}
    (hp : (A ++ r0 :: B).Pairwise (rowLtK orders)) :
    (A ++ r0 :: B).filter
        (fun r => keyLt (dirs orders) (keyOf orders r) (keyOf orders r0)) = A := by
  have hparts := List.pairwise_append.mp hp
  have hcons := List.pairwise_cons.mp hparts.2.1
  have hA : A.filter
      (fun r => keyLt (dirs orders) (keyOf orders r) (keyOf orders r0)) = A :=
    List.filter_eq_self.mpr (fun a ha => hparts.2.2 a ha r0 (List.mem_cons_self _ _))
  have hB : B.filter
      (fun r => keyLt (dirs orders) (keyOf orders r) (keyOf orders r0)) = [] :=
    List.filter_eq_nil_iff.mpr (fun b hb => by
      have hlt : rowLtK orders r0 b := hcons.1 b hb
      simp only [Bool.not_eq_true]
      exact Bool.eq_false_iff.mpr (fun h => keyLt_asymm h hlt))
  rw [List.filter_append, hA, List.filter_cons,
    show keyLt (dirs orders) (keyOf orders r0) (keyOf orders r0) = false from
      keyLt_irrefl _ _]
  simp [hB]

theorem dataset_filters_append (db : List RowT) (cf : List (RowT → Bool))
    (p : RowT → Bool) :
    dataset db (cf ++ [p]) = (dataset db cf).filter p := by
  unfold dataset
  rw [List.filter_filter]
  refine List.filter_congr ?_
  intro r _
  simp [Bool.and_comm]

/-! ## Decoding a generated cursor -/

theorem toValue_toJson {v : Value} (h : v ≠ Value.vundef) :
    Json.toValue v.toJson = some v := by
  cases v <;> simp_all [Value.toJson, Json.toValue]

theorem mapM_toValue_comp : ∀ (columns : TColumns) (r : RowT),
    (∀ p ∈ columns, rowGet r p.1 ≠ Value.vundef) →
    (columns.map (fun p => (rowGet r p.1).toJson)).mapM Json.toValue
      = some (columns.map (fun p => rowGet r p.1))
  | [], _, _ => rfl
  | p :: ps, r, h => by
    rw [List.map_cons, List.mapM_cons,
      toValue_toJson (h p (List.mem_cons_self _ _)),
      mapM_toValue_comp ps r (fun q hq => h q (List.mem_cons_of_mem _ hq))]
    rfl

/-- Decoding a cursor generated from a row recovers exactly the row's
values at the cursor columns and the flag, provided none of those values is
`undefined` (an `undefined` value serialises to JSON `null` and would come
back as `null`). -/
theorem shapeCursor_genCursor {columns : TColumns} {r : RowT} {b : Bool}
    (h : ∀ p ∈ columns, rowGet r p.1 ≠ Value.vundef) :
    shapeCursor (genCursor columns r b) =
      .ok (columns.map (fun p => rowGet r p.1), b) := by
  have hdata : (genCursor columns r b).getField "data" =
      some (Json.arr (columns.map (fun p => (rowGet r p.1).toJson))) := rfl
  have hptn : (genCursor columns r b).getField "point_to_next" =
      some (Json.bool b) := rfl
  rw [shapeCursor, hdata]
  dsimp only
  rw [mapM_toValue_comp columns r h]
  dsimp only
  rw [hptn]
  rfl

theorem jsTruthy_genCursor (columns : TColumns) (r : RowT) (b : Bool) :
    jsTruthy (genCursor columns r b) = true := rfl

/-! ## The columns object under unique column names -/

theorem objAssign_not_mem {acc : TColumns} {c : String} (d : Direction)
    (h : ∀ p ∈ acc, p.1 ≠ c) : objAssign acc c d = acc ++ [(c, d)] := by
  rw [objAssign, if_neg (fun h2 => by
    rw [List.any_eq_true] at h2
    obtain ⟨p, hp, hpc⟩ := h2
    exact h p hp (by simpa using hpc))]

theorem convert_foldl_eq : ∀ (l : List OrderByClause) (acc : TColumns),
    (acc.map Prod.fst ++ l.map (fun cl => cl.column)).Nodup →
    l.foldl (fun acc clause => objAssign acc clause.column clause.direction) acc
      = acc ++ l.map (fun cl => (cl.column, cl.direction))
  | [], acc, _ => by simp
  | cl :: rest, acc, h => by
    have hc : ∀ p ∈ acc, p.1 ≠ cl.column := by
      intro p hp he
      refine (List.nodup_append.mp h).2.2 (List.mem_map_of_mem Prod.fst hp) ?_
      rw [he, List.map_cons]
      exact List.mem_cons_self _ _
    rw [List.foldl_cons, objAssign_not_mem cl.direction hc,
      convert_foldl_eq rest (acc ++ [(cl.column, cl.direction)]) (by
        rw [List.map_append]
        simpa [List.append_assoc] using h)]
    simp

/-- Under the OrderSpec invariant (unique column identifiers), the columns
object lists exactly the clauses, in clause order. -/
theorem convertOrderByToColumns_eq {l : List OrderByClause}
    (h : (l.map (fun cl => cl.column)).Nodup) :
    convertOrderByToColumns l = l.map (fun cl => (cl.column, cl.direction)) := by
  have := convert_foldl_eq l [] (by simpa using h)
  simpa [convertOrderByToColumns] using this

theorem columns_map_snd {l : List OrderByClause}
    (h : (l.map (fun cl => cl.column)).Nodup) :
    (convertOrderByToColumns l).map Prod.snd = dirs l := by
  rw [convertOrderByToColumns_eq h, List.map_map]
  rfl

theorem columns_map_get {l : List OrderByClause}
    (h : (l.map (fun cl => cl.column)).Nodup) (r : RowT) :
    (convertOrderByToColumns l).map (fun p => rowGet r p.1) = keyOf l r := by
  rw [convertOrderByToColumns_eq h, List.map_map]
  rfl

theorem columns_length {l : List OrderByClause}
    (h : (l.map (fun cl => cl.column)).Nodup) :
    (convertOrderByToColumns l).length = l.length := by
  rw [convertOrderByToColumns_eq h, List.length_map]

/-! ## Unfolding the paginate call -/

/-- A call without a cursor (or with the falsy empty string): no filter is
added, the original ordering is re-applied, and assembly runs in the
no-cursor branches. -/
theorem cursorPaginate_nocursor (db : List RowT) (obc : List OrderByClause)
    (cf : List (RowT → Bool)) (l0 : Option Int) (limit : Int) (arg : CursorArg)
    (hobc : obc ≠ []) (harg : arg = CursorArg.none ∨ arg = CursorArg.empty) :
    cursorPaginate db ⟨obc, cf, l0⟩ limit arg =
      (assemblePage (convertOrderByToColumns obc) limit false Option.none
          ((sortRows obc (dataset db cf)).take (limit + 1).toNat)).map
        (fun page => (page, (⟨obc, cf, some (limit + 1)⟩ : Builder))) := by
  obtain ⟨c0, rest, rfl⟩ : ∃ c0 rest, obc = c0 :: rest := by
    cases obc with
    | nil => exact absurd rfl hobc
    | cons c0 rest => exact ⟨c0, rest, rfl⟩
  have hrw : applyOrderBy (clearOrderByStatements ⟨c0 :: rest, cf, l0⟩)
      (c0 :: rest) false = ⟨c0 :: rest, cf, l0⟩ := by
    rw [clearOrderByStatements, applyOrderBy_eq]
    simp
  rcases harg with rfl | rfl <;>
  · rw [cursorPaginate]
    simp only [extractOrderByClauses, List.isEmpty, Bool.false_eq_true, if_false,
      parseCursor, cursorTruthy, applyCursorStep]
    rw [hrw]
    rfl

/-- A call with a cursor generated from row `r0` (the only cursors the
paginator itself emits): the boundary condition is pushed as a filter, the
ordering is re-applied (flipped for a backward cursor), and assembly runs
in the cursor branches with the decoded flag. -/
theorem cursorPaginate_genCursor (db : List RowT) (obc : List OrderByClause)
    (cf : List (RowT → Bool)) (l0 : Option Int) (limit : Int) (r0 : RowT) (b : Bool)
    (hobc : obc ≠ []) (hnd : (obc.map (fun cl => cl.column)).Nodup)
    (hstable : ∀ cl ∈ obc, rowGet r0 cl.column ≠ Value.vundef) :
    cursorPaginate db ⟨obc, cf, l0⟩ limit
        (.json (genCursor (convertOrderByToColumns obc) r0 b)) =
      (assemblePage (convertOrderByToColumns obc) limit true
          (some (keyOf obc r0, b))
          (runFetch db
            (⟨(if b then obc else obc.map flipClause),
              cf ++ [applyCursorConditions b (convertOrderByToColumns obc)
                (keyOf obc r0)],
              some (limit + 1)⟩ : Builder) (limit + 1).toNat)).map
        (fun page => (page,
          (⟨(if b then obc else obc.map flipClause),
            cf ++ [applyCursorConditions b (convertOrderByToColumns obc)
              (keyOf obc r0)],
            some (limit + 1)⟩ : Builder))) := by
  obtain ⟨c0, rest, rfl⟩ : ∃ c0 rest, obc = c0 :: rest := by
    cases obc with
    | nil => exact absurd rfl hobc
    | cons c0 rest => exact ⟨c0, rest, rfl⟩
  have hmem : ∀ p ∈ convertOrderByToColumns (c0 :: rest),
      rowGet r0 p.1 ≠ Value.vundef := by
    intro p hp
    rw [convertOrderByToColumns_eq hnd] at hp
    rcases List.mem_map.mp hp with ⟨cl, hcl, rfl⟩
    exact hstable cl hcl
  have hlen : ¬ (convertOrderByToColumns (c0 :: rest)).length <
      ((convertOrderByToColumns (c0 :: rest)).map
        (fun p => rowGet r0 p.1)).length := by
    rw [List.length_map]
    omega
  rw [cursorPaginate]
  simp only [extractOrderByClauses, List.isEmpty, Bool.false_eq_true, if_false,
    parseCursor, cursorTruthy, applyCursorStep, jsTruthy_genCursor,
    Bool.and_self, if_true, shapeCursor_genCursor hmem]
  rw [if_neg hlen, columns_map_get hnd]
  have hrw : ∀ rev : Bool,
      applyOrderBy (clearOrderByStatements
        (⟨c0 :: rest,
          cf ++ [applyCursorConditions b (convertOrderByToColumns (c0 :: rest))
            (keyOf (c0 :: rest) r0)], l0⟩ : Builder)) (c0 :: rest) rev =
      ⟨(if rev then (c0 :: rest).map flipClause else c0 :: rest),
        cf ++ [applyCursorConditions b (convertOrderByToColumns (c0 :: rest))
          (keyOf (c0 :: rest) r0)], l0⟩ := by
    intro rev
    rw [clearOrderByStatements, applyOrderBy_eq]
    cases rev <;> simp
  cases b <;> simp only [hrw, Bool.not_true, Bool.not_false, if_true, if_false] <;> rfl

/-! ## What the store returns for each cursor kind -/

theorem runFetch_plain (db : List RowT) (obc : List OrderByClause)
    (cf : List (RowT → Bool)) (l0 : Option Int) (n : Nat) :
    runFetch db ⟨obc, cf, l0⟩ n = (sortRows obc (dataset db cf)).take n := rfl

/-- Forward cursor at a realized boundary: the store returns the rows after
`r0` in sorted order. -/
theorem runFetch_fwd_boundary {db : List RowT} {cf : List (RowT → Bool)}
    {obc : List OrderByClause} {A B : List RowT} {r0 : RowT}
    (n : Nat) (l0 : Option Int)
    (hnd : (obc.map (fun cl => cl.column)).Nodup)
    (hkeys : nodupKeys obc (dataset db cf))
    (hS : sortRows obc (dataset db cf) = A ++ r0 :: B) :
    runFetch db
      (⟨obc, cf ++ [applyCursorConditions true (convertOrderByToColumns obc)
          (keyOf obc r0)], l0⟩ : Builder) n = B.take n := by
  have hfun : applyCursorConditions true (convertOrderByToColumns obc)
      (keyOf obc r0) =
      fun r => keyLt (dirs obc) (keyOf obc r0) (keyOf obc r) := by
    funext r
    rw [applyCursorConditions_eq_keyLt, if_pos rfl, columns_map_snd hnd,
      columns_map_get hnd]
  show (sortRows obc (dataset db (cf ++ [applyCursorConditions true
      (convertOrderByToColumns obc) (keyOf obc r0)]))).take n = B.take n
  rw [dataset_filters_append, sortRows_filter hkeys, hS, hfun,
    filter_after_boundary (hS ▸ sortRows_pairwise_ltK hkeys)]

/-- Backward cursor at a realized boundary: the store returns the rows
before `r0`, in reversed order. -/
theorem runFetch_bwd_boundary {db : List RowT} {cf : List (RowT → Bool)}
    {obc : List OrderByClause} {A B : List RowT} {r0 : RowT}
    (n : Nat) (l0 : Option Int)
    (hnd : (obc.map (fun cl => cl.column)).Nodup)
    (hkeys : nodupKeys obc (dataset db cf))
    (hS : sortRows obc (dataset db cf) = A ++ r0 :: B) :
    runFetch db
      (⟨obc.map flipClause, cf ++ [applyCursorConditions false
          (convertOrderByToColumns obc) (keyOf obc r0)], l0⟩ : Builder) n =
      A.reverse.take n := by
  have hfun : applyCursorConditions false (convertOrderByToColumns obc)
      (keyOf obc r0) =
      fun r => keyLt (dirs obc) (keyOf obc r) (keyOf obc r0) := by
    funext r
    rw [applyCursorConditions_eq_keyLt, if_neg (by simp), columns_map_snd hnd,
      columns_map_get hnd]
  show (sortRows (obc.map flipClause) (dataset db (cf ++
      [applyCursorConditions false (convertOrderByToColumns obc)
        (keyOf obc r0)]))).take n = A.reverse.take n
  rw [dataset_filters_append, sortRows_filter (nodupKeys_map_flipClause hkeys),
    sortRows_flip hkeys, hS, hfun, List.filter_reverse,
    filter_before_boundary (hS ▸ sortRows_pairwise_ltK hkeys)]

/-! ## What assembly produces in each branch -/

theorem getLast_getD_congr {α : Type} (l : List α) (x y : α) (h : l ≠ []) :
    l.getLast?.getD x = l.getLast?.getD y := by
  cases hl : l.getLast? with
  | none => exact absurd (List.getLast?_eq_none_iff.mp hl) h
  | some a => rfl

theorem dropLast_take_succ {α : Type} {S : List α} {L : Nat}
    (h : L + 1 ≤ S.length) : (S.take (L + 1)).dropLast = S.take L := by
  rw [List.dropLast_eq_take, List.length_take, List.take_take]
  congr 1
  omega

theorem assemblePage_nocursor (columns : TColumns) (limit : Int) (S : List RowT)
    (hlim : 1 ≤ limit) :
    assemblePage columns limit false Option.none (S.take (limit + 1).toNat) =
      .ok (if (S.length : Int) ≤ limit then
          (⟨S, Option.none, Option.none⟩ : CursorPage)
        else
          ⟨S.take limit.toNat,
            some (genCursor columns ((S.take limit.toNat).getLast?.getD []) true),
            Option.none⟩) := by
  have hL : (limit + 1).toNat = limit.toNat + 1 := by omega
  obtain ⟨K, hK⟩ : ∃ K, limit.toNat = K + 1 := ⟨limit.toNat - 1, by omega⟩
  rw [hL, hK]
  cases S with
  | nil => rw [if_pos (by simp; omega)]; rfl
  | cons s0 S2 =>
    rw [List.take_succ_cons]
    by_cases hle : (((s0 :: S2).length : Nat) : Int) ≤ limit
    · rw [if_pos hle]
      have htk : S2.take (K + 1) = S2 :=
        List.take_of_length_le (by simp at hle; omega)
      rw [htk, assemblePage, if_pos hle]
      rfl
    · rw [if_neg hle]
      have hS2 : K + 1 ≤ S2.length := by simp at hle; omega
      have hdl : (s0 :: S2.take (K + 1)).dropLast = s0 :: S2.take K := by
        rw [show s0 :: S2.take (K + 1) = (s0 :: S2).take (K + 1 + 1) from
          List.take_succ_cons.symm,
          dropLast_take_succ (by simp; omega), List.take_succ_cons]
      rw [assemblePage, if_neg (by
        rw [List.length_cons, List.length_take, Nat.min_eq_left hS2]
        push_cast
        omega)]
      dsimp only
      rw [hdl]
      dsimp only
      rw [if_pos rfl,
        getLast_getD_congr (s0 :: S2.take K) s0 ([] : RowT) (by simp),
        List.take_succ_cons]

theorem assemblePage_fwd (columns : TColumns) (limit : Int) (B : List RowT)
    (vals : List Value) (hlim : 1 ≤ limit) :
    assemblePage columns limit true (some (vals, true)) (B.take (limit + 1).toNat) =
      .ok (if B = [] then (⟨[], Option.none, Option.none⟩ : CursorPage)
        else if (B.length : Int) ≤ limit then
          ⟨B, Option.none, some (genCursor columns (B.head?.getD []) false)⟩
        else
          ⟨B.take limit.toNat,
            some (genCursor columns ((B.take limit.toNat).getLast?.getD []) true),
            some (genCursor columns (B.head?.getD []) false)⟩) := by
  have hL : (limit + 1).toNat = limit.toNat + 1 := by omega
  obtain ⟨K, hK⟩ : ∃ K, limit.toNat = K + 1 := ⟨limit.toNat - 1, by omega⟩
  rw [hL, hK]
  cases B with
  | nil => rw [if_pos rfl]; rfl
  | cons b0 B2 =>
    rw [if_neg (by simp), List.take_succ_cons]
    by_cases hle : (((b0 :: B2).length : Nat) : Int) ≤ limit
    · rw [if_pos hle]
      have htk : B2.take (K + 1) = B2 :=
        List.take_of_length_le (by simp at hle; omega)
      rw [htk, assemblePage, if_pos hle]
      rfl
    · rw [if_neg hle]
      have hB2 : K + 1 ≤ B2.length := by simp at hle; omega
      have hdl : (b0 :: B2.take (K + 1)).dropLast = b0 :: B2.take K := by
        rw [show b0 :: B2.take (K + 1) = (b0 :: B2).take (K + 1 + 1) from
          List.take_succ_cons.symm,
          dropLast_take_succ (by simp; omega), List.take_succ_cons]
      rw [assemblePage, if_neg (by
        rw [List.length_cons, List.length_take, Nat.min_eq_left hB2]
        push_cast
        omega)]
      dsimp only
      rw [hdl]
      dsimp only
      rw [getLast_getD_congr (b0 :: B2.take K) b0 ([] : RowT) (by simp),
        List.take_succ_cons]
      rfl

theorem getLast?_drop_of_lt {α : Type} (A : List α) (k : Nat) (h : k < A.length) :
    (A.drop k).getLast? = A.getLast? := by
  conv_rhs => rw [show A = A.take k ++ A.drop k from (List.take_append_drop k A).symm]
  rw [List.getLast?_append_of_ne_nil]
  intro hnil
  have := congrArg List.length hnil
  rw [List.length_drop] at this
  simp at this
  omega

theorem assemblePage_bwd (columns : TColumns) (limit : Int) (A : List RowT)
    (vals : List Value) (hlim : 1 ≤ limit) :
    assemblePage columns limit true (some (vals, false))
        (A.reverse.take (limit + 1).toNat) =
      .ok (if A = [] then (⟨[], Option.none, Option.none⟩ : CursorPage)
        else if (A.length : Int) ≤ limit then
          ⟨A, some (genCursor columns (A.getLast?.getD []) true), Option.none⟩
        else
          ⟨A.drop (A.length - limit.toNat),
            some (genCursor columns (A.getLast?.getD []) true),
            some (genCursor columns
              ((A.drop (A.length - limit.toNat)).head?.getD []) false)⟩) := by
  have hL : (limit + 1).toNat = limit.toNat + 1 := by omega
  obtain ⟨K, hK⟩ : ∃ K, limit.toNat = K + 1 := ⟨limit.toNat - 1, by omega⟩
  rw [hL, hK]
  by_cases hA : A = []
  · subst hA
    rw [if_pos rfl]
    rfl
  rw [if_neg hA]
  cases hrev : A.reverse with
  | nil => exact absurd (by simpa using congrArg List.reverse hrev) hA
  | cons r0 rs =>
  have hAeq : A = (r0 :: rs).reverse := by
    rw [← hrev, List.reverse_reverse]
  have hAlen : A.length = rs.length + 1 := by
    have := congrArg List.length hrev
    rw [List.length_reverse] at this
    simpa using this
  by_cases hle : ((A.length : Nat) : Int) ≤ limit
  · rw [if_pos hle]
    rw [List.take_of_length_le (by
      have := congrArg List.length hrev
      rw [List.length_reverse] at this
      rw [← this]
      omega), assemblePage, if_pos (by
        rw [← hrev, List.length_reverse]
        exact hle)]
    dsimp only
    rw [← hrev, List.reverse_reverse,
      getLast_getD_congr A r0 ([] : RowT) hA]
    rfl
  · rw [if_neg hle]
    have hrs : K + 1 ≤ rs.length := by omega
    rw [List.take_succ_cons]
    have hdl : (r0 :: rs.take (K + 1)).dropLast = r0 :: rs.take K := by
      rw [show r0 :: rs.take (K + 1) = (r0 :: rs).take (K + 1 + 1) from
        List.take_succ_cons.symm,
        dropLast_take_succ (by simp; omega), List.take_succ_cons]
    rw [assemblePage, if_neg (by
      rw [List.length_cons, List.length_take, Nat.min_eq_left hrs]
      push_cast
      omega)]
    try dsimp only
    rw [hdl]
    try dsimp only
    have hfinal : (r0 :: rs.take K).reverse = A.drop (A.length - (K + 1)) := by
      rw [show r0 :: rs.take K = (r0 :: rs).take (K + 1) from
        List.take_succ_cons.symm, ← hrev, List.take_reverse,
        List.reverse_reverse]
    rw [hfinal]
    cases hdrp : A.drop (A.length - (K + 1)) with
    | nil =>
      have := congrArg List.length hdrp
      rw [List.length_drop] at this
      simp at this
      omega
    | cons f0 fs =>
    dsimp only
    have hlast : (f0 :: fs).getLast?.getD f0 = A.getLast?.getD ([] : RowT) := by
      rw [← hdrp, getLast?_drop_of_lt A _ (by omega)]
      exact getLast_getD_congr A f0 ([] : RowT) hA
    rw [hlast, ← hdrp]
    rw [show (A.drop (A.length - (K + 1))).head?.getD ([] : RowT) = f0 from by
      rw [hdrp]
      rfl]
    rfl

theorem paginate_none_shape (db : List RowT) (obc : List OrderByClause)
    (cf : List (RowT → Bool)) (l0 : Option Int) (limit : Int) (arg : CursorArg)
    (hobc : obc ≠ []) (harg : arg = CursorArg.none ∨ arg = CursorArg.empty)
    (hlim : 1 ≤ limit) :
    cursorPaginate db ⟨obc, cf, l0⟩ limit arg =
      .ok (pageOfNone (convertOrderByToColumns obc) limit
              (sortRows obc (dataset db cf)),
           ⟨obc, cf, some (limit + 1)⟩) := by
  rw [cursorPaginate_nocursor db obc cf l0 limit arg hobc harg,
    assemblePage_nocursor _ _ _ hlim]
  rfl

theorem paginate_fwd_shape (db : List RowT) (obc : List OrderByClause)
    (cf : List (RowT → Bool)) (l0 : Option Int) (limit : Int)
    {A B : List RowT} {r0 : RowT}
    (hobc : obc ≠ []) (hnd : (obc.map (fun cl => cl.column)).Nodup)
    (hkeys : nodupKeys obc (dataset db cf))
    (hstable : ∀ cl ∈ obc, rowGet r0 cl.column ≠ Value.vundef)
    (hlim : 1 ≤ limit)
    (hS : sortRows obc (dataset db cf) = A ++ r0 :: B) :
    cursorPaginate db ⟨obc, cf, l0⟩ limit
        (.json (genCursor (convertOrderByToColumns obc) r0 true)) =
      .ok (pageOfFwd (convertOrderByToColumns obc) limit B,
           ⟨obc,
            cf ++ [applyCursorConditions true (convertOrderByToColumns obc)
              (keyOf obc r0)],
            some (limit + 1)⟩) := by
  rw [cursorPaginate_genCursor db obc cf l0 limit r0 true hobc hnd hstable]
  simp only [if_true]
  rw [runFetch_fwd_boundary _ _ hnd hkeys hS, assemblePage_fwd _ _ _ _ hlim]
  rfl

theorem paginate_bwd_shape (db : List RowT) (obc : List OrderByClause)
    (cf : List (RowT → Bool)) (l0 : Option Int) (limit : Int)
    {A B : List RowT} {r0 : RowT}
    (hobc : obc ≠ []) (hnd : (obc.map (fun cl => cl.column)).Nodup)
    (hkeys : nodupKeys obc (dataset db cf))
    (hstable : ∀ cl ∈ obc, rowGet r0 cl.column ≠ Value.vundef)
    (hlim : 1 ≤ limit)
    (hS : sortRows obc (dataset db cf) = A ++ r0 :: B) :
    cursorPaginate db ⟨obc, cf, l0⟩ limit
        (.json (genCursor (convertOrderByToColumns obc) r0 false)) =
      .ok (pageOfBwd (convertOrderByToColumns obc) limit A,
           ⟨obc.map flipClause,
            cf ++ [applyCursorConditions false (convertOrderByToColumns obc)
              (keyOf obc r0)],
            some (limit + 1)⟩) := by
  rw [cursorPaginate_genCursor db obc cf l0 limit r0 false hobc hnd hstable]
  simp only [if_false, Bool.false_eq_true]
  rw [runFetch_bwd_boundary _ _ hnd hkeys hS, assemblePage_bwd _ _ _ _ hlim]
  rfl

/-- **C1** (confirmed).  For a non-empty ordering and a cursor whose value
count equals the column count, the filter `applyCursorConditions` builds is
exactly the spec's recursive lexicographic boundary predicate: strict
inequality per the column's direction, or equality and the same rule on the
remaining columns, with the equality branch omitted for the last column;
backward is the same with every inequality flipped. -/
theorem C1_boundary_filter_is_lexicographic (pointsToNext : Bool) :
    ∀ (columns : TColumns) (vals : List Value) (r : RowT),
      columns ≠ [] → vals.length = columns.length →
      applyCursorConditions pointsToNext columns vals r =
        specBoundary pointsToNext columns vals r
  | [], _, _, hne, _ => absurd rfl hne
  | [(c, d)], [v], r, _, _ => by
    cases pointsToNext <;>
      simp [applyCursorConditions, specBoundary, specStrict]
  | [(c, d)], [], r, _, hlen => by simp at hlen
  | [(c, d)], v :: v2 :: vs, r, _, hlen => by simp at hlen
  | (c, d) :: cd2 :: cols, [], r, _, hlen => by simp at hlen
  | (c, d) :: cd2 :: cols, [v], r, _, hlen => by simp at hlen
  | (c, d) :: cd2 :: cols, v :: v2 :: vs, r, _, hlen => by
    have ih := C1_boundary_filter_is_lexicographic pointsToNext (cd2 :: cols)
      (v2 :: vs) r (by simp) (by simpa using hlen)
    rw [applyCursorConditions, ih]
    cases pointsToNext <;> simp [specBoundary, specStrict]

/-- Witness for C1 at a concrete ordering, cursor and row. -/
theorem C1_boundary_filter_is_lexicographic_witness :
    ([("t", Direction.desc), ("id", Direction.desc)] : TColumns) ≠ [] ∧
    ([Value.vnum 10, Value.vnum 4] : List Value).length =
      ([("t", Direction.desc), ("id", Direction.desc)] : TColumns).length ∧
    applyCursorConditions true [("t", Direction.desc), ("id", Direction.desc)]
        [Value.vnum 10, Value.vnum 4] [("id", Value.vnum 3), ("t", Value.vnum 9)] =
      specBoundary true [("t", Direction.desc), ("id", Direction.desc)]
        [Value.vnum 10, Value.vnum 4] [("id", Value.vnum 3), ("t", Value.vnum 9)] :=
  ⟨by decide, by decide,
    C1_boundary_filter_is_lexicographic true
      [("t", Direction.desc), ("id", Direction.desc)]
      [Value.vnum 10, Value.vnum 4] [("id", Value.vnum 3), ("t", Value.vnum 9)]
      (by decide) (by decide)⟩

/-! ## C10: the empty-string cursor -/

theorem assemblePage_hasCursorFalse_prev (columns : TColumns) (limit : Int)
    (items : List RowT) (page : CursorPage)
    (h : assemblePage columns limit false Option.none items = .ok page) :
    page.prevCursor = Option.none := by
  cases items with
  | nil =>
    cases h
    rfl
  | cons it0 rest =>
    rw [assemblePage] at h
    by_cases hle : (((it0 :: rest).length : Nat) : Int) ≤ limit
    · rw [if_pos hle, if_pos rfl] at h
      cases h
      rfl
    · rw [if_neg hle] at h
      dsimp only at h
      cases hfin : (it0 :: rest).dropLast with
      | nil =>
        rw [hfin] at h
        cases h
      | cons f0 frest =>
        rw [hfin] at h
        dsimp only at h
        rw [if_pos rfl] at h
        cases h
        rfl

/-- **C10** (confirmed).  Calling paginate with the empty string as cursor
is the very same computation as calling it with no cursor (the empty string
is falsy: never parsed, no boundary filter, no reversal, and the no-cursor
assembly branches); and a no-cursor call never carries a `prevCursor`. -/
theorem C10_empty_cursor_is_no_cursor :
    (∀ (db : List RowT) (query : Builder) (limit : Int),
      cursorPaginate db query limit CursorArg.empty =
        cursorPaginate db query limit CursorArg.none) ∧
    (∀ (db : List RowT) (query : Builder) (limit : Int)
        (page : CursorPage) (qf : Builder),
      cursorPaginate db query limit CursorArg.none = .ok (page, qf) →
      page.prevCursor = Option.none) := by
  constructor
  · intro db query limit
    rfl
  · intro db query limit page qf h
    rw [cursorPaginate] at h
    dsimp only [parseCursor, cursorTruthy, applyCursorStep] at h
    rw [Except.map.eq_def] at h
    split at h
    · cases h
    · rename_i heq
      cases h
      exact assemblePage_hasCursorFalse_prev _ _ _ _ heq

/-- **C3** (counterexample).  For a row carrying a timestamp, decoding the
encoded cursor does not return the row's value for the column: the
timestamp was serialised to its ISO string and comes back as a plain
string.  The exact round-trip claimed for all scalar value types fails. -/
theorem C3_roundtrip_counterexample :
    decodeCursor (encodeCursor [("created_at", Direction.desc)]
        [("created_at", JsVal.date "2024-01-02T03:04:05.000Z")] true) ≠
      some (([("created_at", Direction.desc)] : TColumns).map
        (fun p => jsGet
          [("created_at", JsVal.date "2024-01-02T03:04:05.000Z")] p.1), true) := by
  decide

theorem toJsVal_toJson_scalar {v : Value} (h : v ≠ Value.vundef) :
    Json.toJsVal (JsVal.scalar v).toJson = some (JsVal.scalar v) := by
  show ((JsVal.scalar v).toJson.toValue).map JsVal.scalar = _
  rw [show (JsVal.scalar v).toJson = v.toJson from rfl, toValue_toJson h]
  rfl

theorem mapM_toJsVal_comp : ∀ (columns : TColumns) (item : RowT' JsVal),
    (∀ p ∈ columns, ∃ v, jsGet item p.1 = JsVal.scalar v ∧ v ≠ Value.vundef) →
    (columns.map (fun p => (jsGet item p.1).toJson)).mapM Json.toJsVal
      = some (columns.map (fun p => jsGet item p.1))
  | [], _, _ => rfl
  | p :: ps, item, h => by
    obtain ⟨v, hv, hvu⟩ := h p (List.mem_cons_self _ _)
    rw [List.map_cons, List.mapM_cons, hv, toJsVal_toJson_scalar hvu,
      mapM_toJsVal_comp ps item (fun q hq => h q (List.mem_cons_of_mem _ hq)),
      List.map_cons, hv]
    rfl

/-- **C3** (amended).  The round-trip
`decode(encode(spec, row, b)) = ([row[c] for c in spec], b)` is exact for
the JSON-stable scalar types — strings, numbers, booleans and null.  (It is
not exact for timestamps, which decode to their ISO-string serialisation,
see the counterexample; an `undefined` value likewise comes back as
`null`.) -/
theorem C3_roundtrip_stable (columns : TColumns) (item : RowT' JsVal) (b : Bool)
    (hstable : ∀ p ∈ columns,
      ∃ v, jsGet item p.1 = JsVal.scalar v ∧ v ≠ Value.vundef) :
    decodeCursor (encodeCursor columns item b) =
      some (columns.map (fun p => jsGet item p.1), b) := by
  have hdata : (encodeCursor columns item b).getField "data" =
      some (Json.arr (columns.map (fun p => (jsGet item p.1).toJson))) := rfl
  have hptn : (encodeCursor columns item b).getField "point_to_next" =
      some (Json.bool b) := rfl
  rw [decodeCursor, hdata]
  dsimp only
  rw [mapM_toJsVal_comp columns item hstable]
  dsimp only
  rw [hptn]
  rfl

/-- Witness for the amended C3 at a concrete two-column row holding a
string and a number. -/
theorem C3_roundtrip_stable_witness :
    decodeCursor (encodeCursor [("name", Direction.asc), ("id", Direction.desc)]
        [("name", JsVal.scalar (Value.vstr "a")),
         ("id", JsVal.scalar (Value.vnum 5))] false) =
      some (([("name", Direction.asc), ("id", Direction.desc)] : TColumns).map
        (fun p => jsGet [("name", JsVal.scalar (Value.vstr "a")),
          ("id", JsVal.scalar (Value.vnum 5))] p.1), false) :=
  C3_roundtrip_stable [("name", Direction.asc), ("id", Direction.desc)]
    [("name", JsVal.scalar (Value.vstr "a")),
     ("id", JsVal.scalar (Value.vnum 5))] false
    (by
      intro p hp
      simp only [List.mem_cons, List.not_mem_nil, or_false] at hp
      rcases hp with rfl | rfl
      · exact ⟨Value.vstr "a", rfl, by decide⟩
      · exact ⟨Value.vnum 5, rfl, by decide⟩)

/-! ## C6: malformed cursors -/

/-- **C6** (the code accepts shape-lacking cursors).  Two decoded-but-malformed
cursors, against dataset `[{id:1},{id:2}]` ordered `id asc`, `limit 5`:

* a cursor decoding to `{"data":[2]}` — `point_to_next` missing, so the
  required boolean is absent — raises nothing: the fetch executes with
  *backward* semantics (the missing flag is falsy) and a page is produced;
* a cursor decoding to JSON `null` — not the required shape at all — raises
  nothing either: `cursorData` is falsy, the fetch executes unfiltered and a
  full page is produced.

The claim's `MalformedCursor`-before-fetch behaviour does not exist in the
code for these inputs.  (Only a string `JSON.parse` rejects — `CursorArg.mal`
— errors before the fetch, with a `SyntaxError`, see `parseCursor`.) -/
theorem C6_shape_not_validated :
    ((cursorPaginate
        [[("id", Value.vnum 1)], [("id", Value.vnum 2)]]
        ⟨[⟨"id", Direction.asc⟩], [], Option.none⟩ 5
        (.json (Json.obj [("data", Json.arr [Json.num 2])]))).map
      (fun x => (x.1.items, x.1.nextCursor.isSome, x.1.prevCursor.isSome)) =
      .ok ([[("id", Value.vnum 1)]], true, false)) ∧
    ((cursorPaginate
        [[("id", Value.vnum 1)], [("id", Value.vnum 2)]]
        ⟨[⟨"id", Direction.asc⟩], [], Option.none⟩ 5
        (.json Json.null)).map
      (fun x => (x.1.items, x.1.nextCursor.isSome, x.1.prevCursor.isSome)) =
      .ok ([[("id", Value.vnum 1)], [("id", Value.vnum 2)]], false, false)) := by
  constructor
  · rfl
  · rfl

/-! ## C7: ordering/cursor arity mismatch -/

/-- **C7** (no `OrderingMismatch` is raised).  With ordering
`[(t, desc), (id, desc)]` (two columns) and a decoded cursor carrying a
single value `[10]`, the call succeeds and produces a page: the cursor is
silently truncated to a condition on the first column alone
(`t < 10`, no tie-breaking on `id`), as the second conjunct shows for any
row and boundary value. -/
theorem C7_arity_mismatch_not_rejected :
    ((cursorPaginate
        [[("id", Value.vnum 5), ("t", Value.vnum 10)],
         [("id", Value.vnum 4), ("t", Value.vnum 10)],
         [("id", Value.vnum 3), ("t", Value.vnum 9)]]
        ⟨[⟨"t", Direction.desc⟩, ⟨"id", Direction.desc⟩], [], Option.none⟩ 2
        (.json (Json.obj [("data", Json.arr [Json.num 10]),
           ("point_to_next", Json.bool true)]))).map
      (fun x => (x.1.items, x.1.nextCursor.isSome, x.1.prevCursor.isSome)) =
      .ok ([[("id", Value.vnum 3), ("t", Value.vnum 9)]], false, true)) ∧
    (∀ (r : RowT) (v : Value),
      applyCursorConditions true [("t", Direction.desc), ("id", Direction.desc)]
        [v] r = (rowGet r "t").lt v) := by
  constructor
  · rfl
  · intro r v
    simp [applyCursorConditions]

/-! ## C8: non-positive limits -/

/-- **C8** (no `InvalidLimit` is raised).  The limit is forwarded to the
store as `limit + 1` without validation.  Against a one-row dataset:
`limit = -1` sends `LIMIT 0`, zero rows come back and an ordinary empty
page is returned — no error; `limit = 0` fetches one row, the overflow
branch pops it and then `genCursor` dereferences
`items[items.length - 1]` of the empty array — a TypeError, after the
fetch, not an `InvalidLimit`. -/
theorem C8_limit_not_validated :
    ((cursorPaginate [[("id", Value.vnum 1)]]
        ⟨[⟨"id", Direction.desc⟩], [], Option.none⟩ (-1) .none).map
      (fun x => (x.1.items, x.1.nextCursor.isSome, x.1.prevCursor.isSome)) =
      .ok ([], false, false)) ∧
    ((cursorPaginate [[("id", Value.vnum 1)]]
        ⟨[⟨"id", Direction.desc⟩], [], Option.none⟩ 0 .none).map
      (fun _ => ()) = .error .typeErr) := by
  constructor
  · rfl
  · rfl

/-- **C9** (counterexample).  A backward-cursor call flips the builder's
order-by statements in place (here `id asc` becomes `id desc`), so the
caller-supplied builder is mutated. -/
theorem C9_counterexample :
    ¬ buildersPreserved [] ⟨[⟨"id", Direction.asc⟩], [], Option.none⟩ 1
      (.json (genCursor [("id", Direction.asc)]
        [("id", Value.vnum 1)] false)) := by
  intro h
  have h2 := (h ⟨[], Option.none, Option.none⟩
    ⟨[⟨"id", Direction.desc⟩],
     [applyCursorConditions false [("id", Direction.asc)] [Value.vnum 1]],
     some 2⟩ rfl).1
  exact absurd h2 (by decide)

/-- **C9** (amended).  The call is a deterministic transform with the single
delegated fetch (the model computes it as a pure function), but it mutates
the supplied builder: on a cursor-carrying call the final builder's
where-conditions are the caller's with the boundary condition appended, its
order-by statements are the original ordering (direction-flipped for a
backward cursor), and its limit is set to `limit + 1`. -/
theorem C9_builder_mutation (db : List RowT) (obc : List OrderByClause)
    (cf : List (RowT → Bool)) (l0 : Option Int) (limit : Int) (r0 : RowT)
    (b : Bool)
    (hobc : obc ≠ []) (hnd : (obc.map (fun cl => cl.column)).Nodup)
    (hstable : ∀ cl ∈ obc, rowGet r0 cl.column ≠ Value.vundef) :
    ∀ page qf,
      cursorPaginate db ⟨obc, cf, l0⟩ limit
          (.json (genCursor (convertOrderByToColumns obc) r0 b)) =
        .ok (page, qf) →
      qf = ⟨(if b then obc else obc.map flipClause),
            cf ++ [applyCursorConditions b (convertOrderByToColumns obc)
              (keyOf obc r0)],
            some (limit + 1)⟩ := by
  intro page qf h
  rw [cursorPaginate_genCursor db obc cf l0 limit r0 b hobc hnd hstable] at h
  rw [Except.map.eq_def] at h
  split at h
  · cases h
  · rename_i heq
    cases h
    rfl

/-- Witness for the amended C9: the builder coming back from a concrete
backward-cursor call is the mutated one. -/
theorem C9_builder_mutation_witness :
    (⟨[⟨"id", Direction.desc⟩],
      [applyCursorConditions false [("id", Direction.asc)] [Value.vnum 1]],
      some 2⟩ : Builder) =
    ⟨(if false then [(⟨"id", Direction.asc⟩ : OrderByClause)]
      else [(⟨"id", Direction.asc⟩ : OrderByClause)].map flipClause),
     [] ++ [applyCursorConditions false
       (convertOrderByToColumns [⟨"id", Direction.asc⟩])
       (keyOf [⟨"id", Direction.asc⟩] [("id", Value.vnum 1)])],
     some (1 + 1)⟩ :=
  C9_builder_mutation [] [⟨"id", Direction.asc⟩] [] Option.none 1
    [("id", Value.vnum 1)] false (by decide) (by decide) (by decide)
    ⟨[], Option.none, Option.none⟩
    ⟨[⟨"id", Direction.desc⟩],
     [applyCursorConditions false [("id", Direction.asc)] [Value.vnum 1]],
     some 2⟩ rfl

/-- Witness for C10 at a concrete dataset, builder and limit. -/
theorem C10_empty_cursor_is_no_cursor_witness :
    (cursorPaginate [[("id", Value.vnum 1)]]
        ⟨[⟨"id", Direction.desc⟩], [], Option.none⟩ 1 CursorArg.empty =
      cursorPaginate [[("id", Value.vnum 1)]]
        ⟨[⟨"id", Direction.desc⟩], [], Option.none⟩ 1 CursorArg.none) ∧
    (⟨[[("id", Value.vnum 1)]], Option.none, Option.none⟩ :
        CursorPage).prevCursor = Option.none :=
  ⟨C10_empty_cursor_is_no_cursor.1 [[("id", Value.vnum 1)]]
      ⟨[⟨"id", Direction.desc⟩], [], Option.none⟩ 1,
   C10_empty_cursor_is_no_cursor.2 [[("id", Value.vnum 1)]]
      ⟨[⟨"id", Direction.desc⟩], [], Option.none⟩ 1
      ⟨[[("id", Value.vnum 1)]], Option.none, Option.none⟩
      ⟨[⟨"id", Direction.desc⟩], [], some 2⟩ rfl⟩

/-! ## Position lemmas on key-sorted lists -/

theorem head?_take {α : Type} (l : List α) (n : Nat) (hn : 1 ≤ n) :
    (l.take n).head? = l.head? := by
  cases l <;> cases n <;> simp_all

theorem getLast?_of_ne_nil {α : Type} {l : List α} (h : l ≠ []) :
    ∃ x, l.getLast? = some x := by
  cases hl : l.getLast? with
  | none => exact absurd (List.getLast?_eq_none_iff.mp hl) h
  | some x => exact ⟨x, rfl⟩

/-- Nothing in a strictly sorted list lies beyond its last element. -/
theorem no_beyond_getLast {obc : List OrderByClause} :
    ∀ {S : List RowT}, S.Pairwise (rowLtK obc) → ∀ {x : RowT},
      S.getLast? = some x → ∀ r ∈ S, ¬ rowLtK obc x r
  | [], _, _, hx, _, hr => by cases hx
  | [a], _, x, hx, r, hr => by
    obtain rfl : a = x := by simpa using hx
    obtain rfl : r = a := by simpa using hr
    exact fun h => keyLt_asymm h h
  | a :: b :: t, hp, x, hx, r, hr => by
    have hx2 : (b :: t).getLast? = some x := by
      simpa [List.getLast?_cons_cons] using hx
    have hxmem : x ∈ b :: t := List.mem_of_mem_getLast? hx2
    have hcons := List.pairwise_cons.mp hp
    rcases List.mem_cons.mp hr with rfl | hr2
    · intro hlt
      exact keyLt_asymm (hcons.1 x hxmem) hlt
    · exact no_beyond_getLast hcons.2 hx2 r hr2

/-- Nothing in a strictly sorted list lies before its head. -/
theorem no_before_head {obc : List OrderByClause} {S : List RowT}
    (hp : S.Pairwise (rowLtK obc)) {x : RowT} (hx : S.head? = some x) :
    ∀ r ∈ S, ¬ rowLtK obc r x := by
  cases S with
  | nil => cases hx
  | cons a t =>
    obtain rfl : a = x := by simpa using hx
    have hcons := List.pairwise_cons.mp hp
    intro r hr
    rcases List.mem_cons.mp hr with rfl | hr2
    · exact fun h => keyLt_asymm h h
    · exact fun h => keyLt_asymm h (hcons.1 r hr2)

/-- In a strictly sorted `X ++ Y`, the last element of `X` lies before the
head of `Y`. -/
theorem beyond_of_append {obc : List OrderByClause} {X Y : List RowT}
    (hp : (X ++ Y).Pairwise (rowLtK obc)) {x y : RowT}
    (hx : X.getLast? = some x) (hy : Y.head? = some y) : rowLtK obc x y :=
  (List.pairwise_append.mp hp).2.2 x (List.mem_of_mem_getLast? hx) y
    (List.mem_of_mem_head? hy)

theorem anyRowBeyond_mem_sorted {db : List RowT} {cf : List (RowT → Bool)}
    {obc : List OrderByClause} {x : RowT} :
    anyRowBeyond db cf obc x = true ↔
      ∃ r ∈ sortRows obc (dataset db cf), rowLtK obc x r := by
  rw [anyRowBeyond, List.any_eq_true]
  constructor
  · rintro ⟨r, hr, hlt⟩
    exact ⟨r, (sortRows_perm obc (dataset db cf)).mem_iff.mpr hr, hlt⟩
  · rintro ⟨r, hr, hlt⟩
    exact ⟨r, (sortRows_perm obc (dataset db cf)).mem_iff.mp hr, hlt⟩

theorem anyRowBefore_mem_sorted {db : List RowT} {cf : List (RowT → Bool)}
    {obc : List OrderByClause} {x : RowT} :
    anyRowBefore db cf obc x = true ↔
      ∃ r ∈ sortRows obc (dataset db cf), rowLtK obc r x := by
  rw [anyRowBefore, List.any_eq_true]
  constructor
  · rintro ⟨r, hr, hlt⟩
    exact ⟨r, (sortRows_perm obc (dataset db cf)).mem_iff.mpr hr, hlt⟩
  · rintro ⟨r, hr, hlt⟩
    exact ⟨r, (sortRows_perm obc (dataset db cf)).mem_iff.mp hr, hlt⟩

theorem pageChecks_pageOfNone (db : List RowT) (cf : List (RowT → Bool))
    (obc : List OrderByClause) (columns : TColumns) (limit : Int)
    (hlim : 1 ≤ limit) (hkeys : nodupKeys obc (dataset db cf)) :
    pageChecks db cf obc limit
      (pageOfNone columns limit (sortRows obc (dataset db cf))) := by
  have hp : (sortRows obc (dataset db cf)).Pairwise (rowLtK obc) :=
    sortRows_pairwise_ltK hkeys
  set S := sortRows obc (dataset db cf) with hSdef
  rw [pageOfNone]
  by_cases hle : ((S.length : Nat) : Int) ≤ limit
  · rw [if_pos hle]
    refine ⟨hle, ?_, ?_⟩
    · cases hlast : S.getLast? with
      | none => trivial
      | some x =>
        dsimp only [Option.isSome]
        symm
        rw [Bool.eq_false_iff, Ne, anyRowBeyond_mem_sorted]
        rintro ⟨r, hr, hlt⟩
        exact no_beyond_getLast hp hlast r hr hlt
    · cases hhead : S.head? with
      | none => trivial
      | some x =>
        dsimp only [Option.isSome]
        symm
        rw [Bool.eq_false_iff, Ne, anyRowBefore_mem_sorted]
        rintro ⟨r, hr, hlt⟩
        exact no_before_head hp hhead r hr hlt
  · rw [if_neg hle]
    have hlen : limit.toNat < S.length := by
      simp only [not_le] at hle
      omega
    have hp2 : (S.take limit.toNat ++ S.drop limit.toNat).Pairwise (rowLtK obc) := by
      rw [List.take_append_drop]
      exact hp
    refine ⟨?_, ?_, ?_⟩
    · rw [List.length_take]
      omega
    · cases hlast : (S.take limit.toNat).getLast? with
      | none => trivial
      | some x =>
        dsimp only [Option.isSome]
        symm
        rw [anyRowBeyond_mem_sorted]
        obtain ⟨y, hy⟩ : ∃ y, (S.drop limit.toNat).head? = some y := by
          cases hd : S.drop limit.toNat with
          | nil =>
            have := congrArg List.length hd
            rw [List.length_drop] at this
            simp at this
            omega
          | cons a t => exact ⟨a, rfl⟩
        refine ⟨y, ?_, beyond_of_append hp2 hlast hy⟩
        exact (List.drop_sublist _ _).subset (List.mem_of_mem_head? hy)
    · cases hhead : (S.take limit.toNat).head? with
      | none => trivial
      | some x =>
        dsimp only [Option.isSome]
        symm
        rw [head?_take S limit.toNat (by omega)] at hhead
        rw [Bool.eq_false_iff, Ne, anyRowBefore_mem_sorted]
        rintro ⟨r, hr, hlt⟩
        exact no_before_head hp hhead r hr hlt

theorem head?_append_left {α : Type} {l1 : List α} (l2 : List α) (h : l1 ≠ []) :
    (l1 ++ l2).head? = l1.head? := by
  cases l1 with
  | nil => exact absurd rfl h
  | cons a t => rfl

theorem pageChecks_pageOfFwd (db : List RowT) (cf : List (RowT → Bool))
    (obc : List OrderByClause) (columns : TColumns) (limit : Int)
    {A B : List RowT} {r0 : RowT}
    (hlim : 1 ≤ limit) (hkeys : nodupKeys obc (dataset db cf))
    (hS : sortRows obc (dataset db cf) = A ++ r0 :: B) :
    pageChecks db cf obc limit (pageOfFwd columns limit B) := by
  have hp : (A ++ r0 :: B).Pairwise (rowLtK obc) := hS ▸ sortRows_pairwise_ltK hkeys
  have hr0S : r0 ∈ sortRows obc (dataset db cf) := by
    rw [hS]
    exact List.mem_append_right A (List.mem_cons_self _ _)
  have hpB : B.Pairwise (rowLtK obc) :=
    (List.pairwise_cons.mp (List.pairwise_append.mp hp).2.1).2
  have hr0B : ∀ y ∈ B, rowLtK obc r0 y :=
    (List.pairwise_cons.mp (List.pairwise_append.mp hp).2.1).1
  have hBS : ∀ y ∈ B, y ∈ sortRows obc (dataset db cf) := by
    intro y hy
    rw [hS]
    exact List.mem_append_right A (List.mem_cons_of_mem r0 hy)
  rw [pageOfFwd]
  by_cases hB : B = []
  · rw [if_pos hB]
    subst hB
    refine ⟨by simp; omega, trivial, trivial⟩
  rw [if_neg hB]
  by_cases hle : ((B.length : Nat) : Int) ≤ limit
  · rw [if_pos hle]
    refine ⟨hle, ?_, ?_⟩
    · cases hlast : B.getLast? with
      | none => trivial
      | some x =>
        dsimp only [Option.isSome]
        symm
        rw [Bool.eq_false_iff, Ne, anyRowBeyond_mem_sorted]
        rintro ⟨r, hr, hlt⟩
        have hlastS : (A ++ r0 :: B).getLast? = some x := by
          rw [show A ++ r0 :: B = (A ++ [r0]) ++ B by simp,
            List.getLast?_append_of_ne_nil _ hB, hlast]
        rw [hS] at hr
        exact no_beyond_getLast hp hlastS r hr hlt
    · cases hhead : B.head? with
      | none => trivial
      | some y =>
        dsimp only [Option.isSome]
        symm
        rw [anyRowBefore_mem_sorted]
        exact ⟨r0, hr0S, hr0B y (List.mem_of_mem_head? hhead)⟩
  · rw [if_neg hle]
    have hBlen : limit.toNat < B.length := by
      simp only [not_le] at hle
      omega
    have hpB2 : (B.take limit.toNat ++ B.drop limit.toNat).Pairwise (rowLtK obc) := by
      rw [List.take_append_drop]
      exact hpB
    refine ⟨by rw [List.length_take]; omega, ?_, ?_⟩
    · cases hlast : (B.take limit.toNat).getLast? with
      | none => trivial
      | some x =>
        dsimp only [Option.isSome]
        symm
        rw [anyRowBeyond_mem_sorted]
        obtain ⟨y, hy⟩ : ∃ y, (B.drop limit.toNat).head? = some y := by
          cases hd : B.drop limit.toNat with
          | nil =>
            have := congrArg List.length hd
            rw [List.length_drop] at this
            simp at this
            omega
          | cons a t => exact ⟨a, rfl⟩
        refine ⟨y, hBS y ((List.drop_sublist _ _).subset
          (List.mem_of_mem_head? hy)), beyond_of_append hpB2 hlast hy⟩
    · cases hhead : (B.take limit.toNat).head? with
      | none => trivial
      | some y =>
        dsimp only [Option.isSome]
        symm
        rw [anyRowBefore_mem_sorted]
        rw [head?_take B limit.toNat (by omega)] at hhead
        exact ⟨r0, hr0S, hr0B y (List.mem_of_mem_head? hhead)⟩

theorem pageChecks_pageOfBwd (db : List RowT) (cf : List (RowT → Bool))
    (obc : List OrderByClause) (columns : TColumns) (limit : Int)
    {A B : List RowT} {r0 : RowT}
    (hlim : 1 ≤ limit) (hkeys : nodupKeys obc (dataset db cf))
    (hS : sortRows obc (dataset db cf) = A ++ r0 :: B) :
    pageChecks db cf obc limit (pageOfBwd columns limit A) := by
  have hp : (A ++ r0 :: B).Pairwise (rowLtK obc) := hS ▸ sortRows_pairwise_ltK hkeys
  have hr0S : r0 ∈ sortRows obc (dataset db cf) := by
    rw [hS]
    exact List.mem_append_right A (List.mem_cons_self _ _)
  have hpA : A.Pairwise (rowLtK obc) := (List.pairwise_append.mp hp).1
  have hAr0 : ∀ x ∈ A, rowLtK obc x r0 := fun x hx =>
    (List.pairwise_append.mp hp).2.2 x hx r0 (List.mem_cons_self _ _)
  have hAS : ∀ x ∈ A, x ∈ sortRows obc (dataset db cf) := by
    intro x hx
    rw [hS]
    exact List.mem_append_left _ hx
  rw [pageOfBwd]
  by_cases hA : A = []
  · rw [if_pos hA]
    subst hA
    refine ⟨by simp; omega, trivial, trivial⟩
  rw [if_neg hA]
  by_cases hle : ((A.length : Nat) : Int) ≤ limit
  · rw [if_pos hle]
    refine ⟨hle, ?_, ?_⟩
    · cases hlast : A.getLast? with
      | none => trivial
      | some x =>
        dsimp only [Option.isSome]
        symm
        rw [anyRowBeyond_mem_sorted]
        exact ⟨r0, hr0S, hAr0 x (List.mem_of_mem_getLast? hlast)⟩
    · cases hhead : A.head? with
      | none => trivial
      | some x =>
        dsimp only [Option.isSome]
        symm
        rw [Bool.eq_false_iff, Ne, anyRowBefore_mem_sorted]
        rintro ⟨r, hr, hlt⟩
        have hheadS : (A ++ r0 :: B).head? = some x := by
          rw [head?_append_left _ hA, hhead]
        rw [hS] at hr
        exact no_before_head hp hheadS r hr hlt
  · rw [if_neg hle]
    have hAlen : limit.toNat < A.length := by
      simp only [not_le] at hle
      omega
    have hpA2 : (A.take (A.length - limit.toNat) ++
        A.drop (A.length - limit.toNat)).Pairwise (rowLtK obc) := by
      rw [List.take_append_drop]
      exact hpA
    refine ⟨by rw [List.length_drop]; omega, ?_, ?_⟩
    · cases hlast : (A.drop (A.length - limit.toNat)).getLast? with
      | none => trivial
      | some x =>
        dsimp only [Option.isSome]
        symm
        rw [anyRowBeyond_mem_sorted]
        rw [getLast?_drop_of_lt A _ (by omega)] at hlast
        exact ⟨r0, hr0S, hAr0 x (List.mem_of_mem_getLast? hlast)⟩
    · cases hhead : (A.drop (A.length - limit.toNat)).head? with
      | none => trivial
      | some y =>
        dsimp only [Option.isSome]
        symm
        rw [anyRowBefore_mem_sorted]
        obtain ⟨x, hx⟩ : ∃ x, (A.take (A.length - limit.toNat)).getLast? = some x := by
          refine getLast?_of_ne_nil ?_
          rw [Ne, List.take_eq_nil_iff]
          push_neg
          constructor
          · omega
          · exact hA
        refine ⟨x, hAS x ((List.take_sublist _ _).subset
          (List.mem_of_mem_getLast? hx)), beyond_of_append hpA2 hx hhead⟩

/-- **C4** (counterexample).  Against dataset `{id:1},{id:2}` ordered
`id asc` with `limit 5`, a backward cursor whose boundary value `100` lies
beyond the whole dataset returns all rows together with a `nextCursor`,
although no rows exist beyond the last item — the claimed iff fails for a
call with an arbitrary (non-realized) cursor. -/
theorem C4_counterexample :
    ¬ pageInvariantHolds [[("id", Value.vnum 1)], [("id", Value.vnum 2)]]
        [⟨"id", Direction.asc⟩] [] Option.none 5
        (.json (genCursor [("id", Direction.asc)]
          [("id", Value.vnum 100)] false)) := by
  intro h
  have h2 : (true : Bool) = false := h.2.1
  cases h2

/-- **C4** (amended).  For every call with `limit ≥ 1` whose cursor is
absent, the falsy empty string, or a cursor the paginator itself generated
from a row of the dataset — under the OrderSpec invariant (unique column
names), pairwise-distinct order keys, and rows that carry the order
columns — the returned page satisfies the invariant: `items.length ≤
limit`; `nextCursor` present iff rows exist beyond the last item in the
original forward ordering; `prevCursor` present iff rows exist before the
first item.  (In particular a cursorless call never returns a `prevCursor`,
and a page reached by exhausting forward traversal never returns a
`nextCursor`.) -/
theorem C4_page_invariant (db : List RowT) (obc : List OrderByClause)
    (cf : List (RowT → Bool)) (l0 : Option Int) (limit : Int) (cursor : CursorArg)
    (hobc : obc ≠ []) (hnd : (obc.map (fun cl => cl.column)).Nodup)
    (hkeys : nodupKeys obc (dataset db cf))
    (hstable : ∀ r ∈ dataset db cf, ∀ cl ∈ obc, rowGet r cl.column ≠ Value.vundef)
    (hlim : 1 ≤ limit)
    (hcur : cursor = CursorArg.none ∨ cursor = CursorArg.empty ∨
      ∃ r0 b, r0 ∈ dataset db cf ∧
        cursor = .json (genCursor (convertOrderByToColumns obc) r0 b)) :
    pageInvariantHolds db obc cf l0 limit cursor := by
  rcases hcur with rfl | rfl | ⟨r0, b, hr0, rfl⟩
  · rw [pageInvariantHolds,
      paginate_none_shape db obc cf l0 limit _ hobc (Or.inl rfl) hlim]
    exact pageChecks_pageOfNone db cf obc _ limit hlim hkeys
  · rw [pageInvariantHolds,
      paginate_none_shape db obc cf l0 limit _ hobc (Or.inr rfl) hlim]
    exact pageChecks_pageOfNone db cf obc _ limit hlim hkeys
  · have hr0S : r0 ∈ sortRows obc (dataset db cf) :=
      (sortRows_perm obc (dataset db cf)).mem_iff.mpr hr0
    obtain ⟨A, B, hS⟩ := List.append_of_mem hr0S
    have hst : ∀ cl ∈ obc, rowGet r0 cl.column ≠ Value.vundef := hstable r0 hr0
    cases b
    · rw [pageInvariantHolds,
        paginate_bwd_shape db obc cf l0 limit hobc hnd hkeys hst hlim hS]
      exact pageChecks_pageOfBwd db cf obc _ limit hlim hkeys hS
    · rw [pageInvariantHolds,
        paginate_fwd_shape db obc cf l0 limit hobc hnd hkeys hst hlim hS]
      exact pageChecks_pageOfFwd db cf obc _ limit hlim hkeys hS

/-- Witness for the amended C4 at a concrete dataset and a cursorless
call. -/
theorem C4_page_invariant_witness :
    pageInvariantHolds [[("id", Value.vnum 1)], [("id", Value.vnum 2)]]
      [⟨"id", Direction.asc⟩] [] Option.none 1 CursorArg.none :=
  C4_page_invariant [[("id", Value.vnum 1)], [("id", Value.vnum 2)]]
    [⟨"id", Direction.asc⟩] [] Option.none 1 CursorArg.none
    (by decide) (by decide) (by unfold nodupKeys; decide) (by decide)
    (by decide) (Or.inl rfl)

/-! ## C2: exhaustive forward traversal -/

theorem eq_dropLast_append_of_getLast? {α : Type} : ∀ {l : List α} {x : α},
    l.getLast? = some x → l = l.dropLast ++ [x]
  | [], x, h => by cases h
  | [a], x, h => by
    obtain rfl : a = x := by simpa using h
    rfl
  | a :: b :: t, x, h => by
    have h2 : (b :: t).getLast? = some x := by
      simpa [List.getLast?_cons_cons] using h
    have ih := eq_dropLast_append_of_getLast? h2
    calc a :: b :: t = a :: ((b :: t).dropLast ++ [x]) := by rw [← ih]
    _ = (a :: b :: t).dropLast ++ [x] := by simp

/-- The chain starting from the cursor generated at a realized boundary
`r0` returns exactly the rows after `r0`. -/
theorem forwardChain_from_boundary (db : List RowT) (obc : List OrderByClause)
    (cf : List (RowT → Bool)) (l0 : Option Int) (limit : Int)
    (hobc : obc ≠ []) (hnd : (obc.map (fun cl => cl.column)).Nodup)
    (hkeys : nodupKeys obc (dataset db cf))
    (hstable : ∀ r ∈ dataset db cf, ∀ cl ∈ obc, rowGet r cl.column ≠ Value.vundef)
    (hlim : 1 ≤ limit) :
    ∀ (fuel : Nat) (A B : List RowT) (r0 : RowT),
      sortRows obc (dataset db cf) = A ++ r0 :: B →
      B.length < fuel →
      forwardChain db ⟨obc, cf, l0⟩ limit fuel
        (.json (genCursor (convertOrderByToColumns obc) r0 true)) =
        .ok (some B)
  | 0, A, B, r0, _, hfuel => by omega
  | fuel + 1, A, B, r0, hS, hfuel => by
    have hr0F : r0 ∈ dataset db cf :=
      (sortRows_perm obc (dataset db cf)).mem_iff.mp
        (hS ▸ List.mem_append_right A (List.mem_cons_self _ _))
    have hst : ∀ cl ∈ obc, rowGet r0 cl.column ≠ Value.vundef := hstable r0 hr0F
    rw [forwardChain,
      paginate_fwd_shape db obc cf l0 limit hobc hnd hkeys hst hlim hS,
      pageOfFwd]
    by_cases hB : B = []
    · rw [if_pos hB]
      subst hB
      rfl
    rw [if_neg hB]
    by_cases hle : ((B.length : Nat) : Int) ≤ limit
    · rw [if_pos hle]
    · rw [if_neg hle]
      have hBlen : limit.toNat < B.length := by
        simp only [not_le] at hle
        omega
      have hLpos : 1 ≤ limit.toNat := by omega
      obtain ⟨x, hx⟩ : ∃ x, (B.take limit.toNat).getLast? = some x :=
        getLast?_of_ne_nil (by
          rw [Ne, List.take_eq_nil_iff]
          push_neg
          exact ⟨by omega, hB⟩)
      rw [hx, Option.getD_some]
      have hS2 : sortRows obc (dataset db cf) =
          (A ++ r0 :: (B.take limit.toNat).dropLast) ++
            x :: B.drop limit.toNat := by
        rw [hS]
        conv_lhs => rw [← List.take_append_drop limit.toNat B]
        rw [eq_dropLast_append_of_getLast? hx]
        simp
      have hrec := forwardChain_from_boundary db obc cf l0 limit hobc hnd hkeys
        hstable hlim fuel (A ++ r0 :: (B.take limit.toNat).dropLast)
        (B.drop limit.toNat) x hS2 (by rw [List.length_drop]; omega)
      dsimp only
      rw [hrec]
      dsimp only
      rw [List.take_append_drop]

/-- **C2** (counterexample).  With two distinct rows sharing the same
order-key (`id = 1`, tie broken by nothing) and `limit 1`, the forward
traversal returns only the first row: the page boundary `id > 1` skips the
duplicate-key row, so concatenating all forward pages omits a row of the
dataset. -/
theorem C2_counterexample :
    forwardChain
        [[("id", Value.vnum 1), ("x", Value.vnum 1)],
         [("id", Value.vnum 1), ("x", Value.vnum 2)]]
        ⟨[⟨"id", Direction.asc⟩], [], Option.none⟩ 1 3 CursorArg.none =
      .ok (some [[("id", Value.vnum 1), ("x", Value.vnum 1)]]) ∧
    sortRows [⟨"id", Direction.asc⟩]
        (dataset [[("id", Value.vnum 1), ("x", Value.vnum 1)],
          [("id", Value.vnum 1), ("x", Value.vnum 2)]] []) =
      [[("id", Value.vnum 1), ("x", Value.vnum 1)],
       [("id", Value.vnum 1), ("x", Value.vnum 2)]] ∧
    ¬ ([[("id", Value.vnum 1), ("x", Value.vnum 1)]] : List RowT) =
       [[("id", Value.vnum 1), ("x", Value.vnum 1)],
        [("id", Value.vnum 1), ("x", Value.vnum 2)]] :=
  ⟨rfl, rfl, by decide⟩

/-- **C2** (amended).  For a fixed dataset whose order-key tuples are
pairwise distinct (and whose rows carry the order columns), every ordering
with unique column names, and every `limit ≥ 1`: concatenating the items of
all successive forward pages — from no cursor, following each
`nextCursor` until a page carries none — yields exactly the full (filtered)
dataset in the given order, with no row repeated and none omitted. -/
theorem C2_forward_traversal (db : List RowT) (obc : List OrderByClause)
    (cf : List (RowT → Bool)) (l0 : Option Int) (limit : Int)
    (hobc : obc ≠ []) (hnd : (obc.map (fun cl => cl.column)).Nodup)
    (hkeys : nodupKeys obc (dataset db cf))
    (hstable : ∀ r ∈ dataset db cf, ∀ cl ∈ obc, rowGet r cl.column ≠ Value.vundef)
    (hlim : 1 ≤ limit) :
    forwardChain db ⟨obc, cf, l0⟩ limit (db.length + 1) CursorArg.none =
      .ok (some (sortRows obc (dataset db cf))) := by
  have hSlen : (sortRows obc (dataset db cf)).length ≤ db.length := by
    rw [(sortRows_perm obc (dataset db cf)).length_eq]
    exact List.length_filter_le _ _
  rw [forwardChain,
    paginate_none_shape db obc cf l0 limit _ hobc (Or.inl rfl) hlim,
    pageOfNone]
  by_cases hle : (((sortRows obc (dataset db cf)).length : Nat) : Int) ≤ limit
  · rw [if_pos hle]
  · rw [if_neg hle]
    have hSlen2 : limit.toNat < (sortRows obc (dataset db cf)).length := by
      simp only [not_le] at hle
      omega
    obtain ⟨x, hx⟩ : ∃ x,
        ((sortRows obc (dataset db cf)).take limit.toNat).getLast? = some x :=
      getLast?_of_ne_nil (by
        rw [Ne, List.take_eq_nil_iff]
        push_neg
        constructor
        · omega
        · intro hnil
          rw [hnil] at hSlen2
          simp at hSlen2)
    rw [hx, Option.getD_some]
    have hS2 : sortRows obc (dataset db cf) =
        ((sortRows obc (dataset db cf)).take limit.toNat).dropLast ++
          x :: (sortRows obc (dataset db cf)).drop limit.toNat := by
      conv_lhs => rw [← List.take_append_drop limit.toNat
        (sortRows obc (dataset db cf))]
      rw [eq_dropLast_append_of_getLast? hx]
      simp
    have hrec := forwardChain_from_boundary db obc cf l0 limit hobc hnd hkeys
      hstable hlim db.length
      (((sortRows obc (dataset db cf)).take limit.toNat).dropLast)
      ((sortRows obc (dataset db cf)).drop limit.toNat) x hS2
      (by rw [List.length_drop]; omega)
    dsimp only
    rw [hrec]
    dsimp only
    rw [List.take_append_drop]

/-- Witness for the amended C2 at a concrete scrambled dataset. -/
theorem C2_forward_traversal_witness :
    forwardChain [[("id", Value.vnum 2)], [("id", Value.vnum 1)]]
        ⟨[⟨"id", Direction.asc⟩], [], Option.none⟩ 1 3 CursorArg.none =
      .ok (some (sortRows [⟨"id", Direction.asc⟩]
        (dataset [[("id", Value.vnum 2)], [("id", Value.vnum 1)]] []))) :=
  C2_forward_traversal [[("id", Value.vnum 2)], [("id", Value.vnum 1)]]
    [⟨"id", Direction.asc⟩] [] Option.none 1
    (by decide) (by decide) (by unfold nodupKeys; decide) (by decide) (by decide)

theorem blockOf_pageOfNone (columns : TColumns) (limit : Int) (S : List RowT)
    (hlim : 1 ≤ limit) {c : Json}
    (hnext : (pageOfNone columns limit S).nextCursor = some c) :
    blockOf columns S limit (pageOfNone columns limit S) := by
  rw [pageOfNone] at hnext ⊢
  by_cases hle : ((S.length : Nat) : Int) ≤ limit
  · rw [if_pos hle] at hnext
    cases hnext
  · rw [if_neg hle] at hnext ⊢
    have hSlen : limit.toNat < S.length := by
      simp only [not_le] at hle
      omega
    obtain ⟨x, hx⟩ : ∃ x, (S.take limit.toNat).getLast? = some x :=
      getLast?_of_ne_nil (by
        rw [Ne, List.take_eq_nil_iff]
        push_neg
        constructor
        · omega
        · intro hnil
          rw [hnil] at hSlen
          simp at hSlen)
    refine ⟨[], S.drop limit.toNat, x, ?_, ?_, hx, ?_, ?_, ?_, Or.inl rfl⟩
    · dsimp only
      rw [Ne, List.take_eq_nil_iff]
      push_neg
      constructor
      · omega
      · intro hnil
        rw [hnil] at hSlen
        simp at hSlen
    · dsimp only
      rw [List.nil_append, List.take_append_drop]
    · dsimp only
      rw [hx, Option.getD_some]
    · dsimp only
      intro hnil
      have := congrArg List.length hnil
      rw [List.length_drop] at this
      simp at this
      omega
    · dsimp only
      rw [List.length_take]
      omega

theorem blockOf_pageOfFwd (columns : TColumns) (limit : Int)
    {S A B : List RowT} {r0 : RowT}
    (hS : S = A ++ r0 :: B) (hlim : 1 ≤ limit) {c : Json}
    (hnext : (pageOfFwd columns limit B).nextCursor = some c) :
    blockOf columns S limit (pageOfFwd columns limit B) := by
  rw [pageOfFwd] at hnext ⊢
  by_cases hB : B = []
  · rw [if_pos hB] at hnext
    cases hnext
  rw [if_neg hB] at hnext ⊢
  by_cases hle : ((B.length : Nat) : Int) ≤ limit
  · rw [if_pos hle] at hnext
    cases hnext
  · rw [if_neg hle] at hnext ⊢
    have hBlen : limit.toNat < B.length := by
      simp only [not_le] at hle
      omega
    obtain ⟨x, hx⟩ : ∃ x, (B.take limit.toNat).getLast? = some x :=
      getLast?_of_ne_nil (by
        rw [Ne, List.take_eq_nil_iff]
        push_neg
        exact ⟨by omega, hB⟩)
    refine ⟨A ++ [r0], B.drop limit.toNat, x, ?_, ?_, hx, ?_, ?_, ?_, ?_⟩
    · dsimp only
      rw [Ne, List.take_eq_nil_iff]
      push_neg
      exact ⟨by omega, hB⟩
    · dsimp only
      rw [hS]
      conv_lhs => rw [← List.take_append_drop limit.toNat B]
      simp
    · dsimp only
      rw [hx, Option.getD_some]
    · dsimp only
      intro hnil
      have := congrArg List.length hnil
      rw [List.length_drop] at this
      simp at this
      omega
    · dsimp only
      rw [List.length_take]
      omega
    · refine Or.inr ?_
      dsimp only
      rw [List.length_take]
      omega

theorem blockOf_pageOfBwd (columns : TColumns) (limit : Int)
    {S A B : List RowT} {r0 : RowT}
    (hS : S = A ++ r0 :: B) (hlim : 1 ≤ limit) {c : Json}
    (hnext : (pageOfBwd columns limit A).nextCursor = some c) :
    blockOf columns S limit (pageOfBwd columns limit A) := by
  rw [pageOfBwd] at hnext ⊢
  by_cases hA : A = []
  · rw [if_pos hA] at hnext
    cases hnext
  rw [if_neg hA] at hnext ⊢
  by_cases hle : ((A.length : Nat) : Int) ≤ limit
  · rw [if_pos hle] at hnext ⊢
    obtain ⟨x, hx⟩ : ∃ x, A.getLast? = some x := getLast?_of_ne_nil hA
    refine ⟨[], r0 :: B, x, hA, by rw [List.nil_append, ← hS], hx, ?_, by simp,
      hle, Or.inl rfl⟩
    dsimp only
    rw [hx, Option.getD_some]
  · rw [if_neg hle] at hnext ⊢
    have hAlen : limit.toNat < A.length := by
      simp only [not_le] at hle
      omega
    obtain ⟨x, hx⟩ : ∃ x, A.getLast? = some x := getLast?_of_ne_nil hA
    have hxdrop : (A.drop (A.length - limit.toNat)).getLast? = some x := by
      rw [getLast?_drop_of_lt A _ (by omega)]
      exact hx
    refine ⟨A.take (A.length - limit.toNat), r0 :: B, x, ?_, ?_, hxdrop, ?_,
      by simp, ?_, ?_⟩
    · dsimp only
      intro hnil
      have := congrArg List.length hnil
      rw [List.length_drop] at this
      simp at this
      omega
    · dsimp only
      rw [hS, List.take_append_drop]
    · dsimp only
      rw [hx, Option.getD_some]
    · dsimp only
      rw [List.length_drop]
      omega
    · refine Or.inr ?_
      dsimp only
      rw [List.length_drop]
      omega

/-- Paginating forward from the next-cursor of a block page, then backward
from the resulting page's prev-cursor, reconstructs the block exactly. -/
theorem paginate_back_reconstructs (db : List RowT) (obc : List OrderByClause)
    (cf : List (RowT → Bool)) (l0 : Option Int) (limit : Int)
    (hobc : obc ≠ []) (hnd : (obc.map (fun cl => cl.column)).Nodup)
    (hkeys : nodupKeys obc (dataset db cf))
    (hstable : ∀ r ∈ dataset db cf, ∀ cl ∈ obc, rowGet r cl.column ≠ Value.vundef)
    (hlim : 1 ≤ limit)
    {pageN : CursorPage}
    (hblk : blockOf (convertOrderByToColumns obc)
      (sortRows obc (dataset db cf)) limit pageN)
    {c : Json} (hnext : pageN.nextCursor = some c) :
    ∀ pageM qfM,
      cursorPaginate db ⟨obc, cf, l0⟩ limit (.json c) = .ok (pageM, qfM) →
      ∃ p, pageM.prevCursor = some p ∧
        ∀ pageB qfB,
          cursorPaginate db ⟨obc, cf, l0⟩ limit (.json p) = .ok (pageB, qfB) →
          pageB.items = pageN.items := by
  obtain ⟨pre, post, x, hne, hdecomp, hlast, hnextF, hpost, hlen, hstart⟩ := hblk
  obtain rfl : c = genCursor (convertOrderByToColumns obc) x true := by
    rw [hnext] at hnextF
    exact (Option.some.injEq _ _).mp hnextF
  have hxS : x ∈ sortRows obc (dataset db cf) := by
    rw [hdecomp]
    exact List.mem_append_left post
      (List.mem_append_right pre (List.mem_of_mem_getLast? hlast))
  have hxF : x ∈ dataset db cf :=
    (sortRows_perm obc (dataset db cf)).mem_iff.mp hxS
  have hstx : ∀ cl ∈ obc, rowGet x cl.column ≠ Value.vundef := hstable x hxF
  have hitems : pageN.items = pageN.items.dropLast ++ [x] :=
    eq_dropLast_append_of_getLast? hlast
  have hSx : sortRows obc (dataset db cf) =
      (pre ++ pageN.items.dropLast) ++ x :: post := by
    rw [hdecomp]
    conv_lhs => rw [hitems]
    simp
  intro pageM qfM hM
  rw [paginate_fwd_shape db obc cf l0 limit hobc hnd hkeys hstx hlim hSx] at hM
  cases hM
  cases post with
  | nil => exact absurd rfl hpost
  | cons y post2 =>
  have hyS : y ∈ sortRows obc (dataset db cf) := by
    rw [hSx]
    exact List.mem_append_right _ (List.mem_cons_of_mem x (List.mem_cons_self _ _))
  have hyF : y ∈ dataset db cf :=
    (sortRows_perm obc (dataset db cf)).mem_iff.mp hyS
  have hsty : ∀ cl ∈ obc, rowGet y cl.column ≠ Value.vundef := hstable y hyF
  refine ⟨genCursor (convertOrderByToColumns obc) y false, ?_, ?_⟩
  · rw [pageOfFwd, if_neg (by simp)]
    by_cases hle2 : (((y :: post2).length : Nat) : Int) ≤ limit
    · rw [if_pos hle2]
      rfl
    · rw [if_neg hle2]
      rfl
  · intro pageB qfB hB
    have hSy : sortRows obc (dataset db cf) =
        (pre ++ pageN.items) ++ y :: post2 := hdecomp
    rw [paginate_bwd_shape db obc cf l0 limit hobc hnd hkeys hsty hlim hSy] at hB
    cases hB
    rw [pageOfBwd, if_neg (by
      intro h2
      exact hne (List.append_eq_nil.mp h2).2)]
    by_cases hAle : (((pre ++ pageN.items).length : Nat) : Int) ≤ limit
    · rw [if_pos hAle]
      have hpre : pre = [] := by
        rcases hstart with h | h
        · exact h
        · rw [List.length_append] at hAle
          rw [← List.length_eq_zero]
          omega
      subst hpre
      dsimp only
      rw [List.nil_append]
    · rw [if_neg hAle]
      have hlenitems : pageN.items.length = limit.toNat := by
        rcases hstart with h | h
        · subst h
          rw [List.nil_append] at hAle
          exact absurd hlen hAle
        · exact h
      dsimp only
      have harith : (pre ++ pageN.items).length - limit.toNat = pre.length := by
        rw [List.length_append]
        omega
      rw [harith, List.drop_left]

/-- **C5** (counterexample).  With rows sharing an order-key (`k = 2`, no
tie-breaker) and `limit 2`, the first page is `[k1, k2a]` with a
`nextCursor` at the boundary `k = 2`; paginating forward from it skips the
tied row `k2b` and lands on `[k3]`, and paginating backward from that
page's `prevCursor` returns `[k2b, k2a]` — not the first page's item
sequence. -/
theorem C5_counterexample :
    (cursorPaginate
        [[("k", Value.vnum 1)],
         [("k", Value.vnum 2), ("x", Value.vnum 1)],
         [("k", Value.vnum 2), ("x", Value.vnum 2)],
         [("k", Value.vnum 3)]]
        ⟨[⟨"k", Direction.asc⟩], [], Option.none⟩ 2 CursorArg.none).map
        (fun r => (r.1.items, r.1.nextCursor)) =
      .ok ([[("k", Value.vnum 1)], [("k", Value.vnum 2), ("x", Value.vnum 1)]],
           some (genCursor [("k", Direction.asc)]
             [("k", Value.vnum 2), ("x", Value.vnum 1)] true)) ∧
    (cursorPaginate
        [[("k", Value.vnum 1)],
         [("k", Value.vnum 2), ("x", Value.vnum 1)],
         [("k", Value.vnum 2), ("x", Value.vnum 2)],
         [("k", Value.vnum 3)]]
        ⟨[⟨"k", Direction.asc⟩], [], Option.none⟩ 2
        (.json (genCursor [("k", Direction.asc)]
          [("k", Value.vnum 2), ("x", Value.vnum 1)] true))).map
        (fun r => (r.1.items, r.1.prevCursor)) =
      .ok ([[("k", Value.vnum 3)]],
           some (genCursor [("k", Direction.asc)] [("k", Value.vnum 3)] false)) ∧
    (cursorPaginate
        [[("k", Value.vnum 1)],
         [("k", Value.vnum 2), ("x", Value.vnum 1)],
         [("k", Value.vnum 2), ("x", Value.vnum 2)],
         [("k", Value.vnum 3)]]
        ⟨[⟨"k", Direction.asc⟩], [], Option.none⟩ 2
        (.json (genCursor [("k", Direction.asc)]
          [("k", Value.vnum 3)] false))).map
        (fun r => r.1.items) =
      .ok [[("k", Value.vnum 2), ("x", Value.vnum 2)],
           [("k", Value.vnum 2), ("x", Value.vnum 1)]] ∧
    ¬ ([[("k", Value.vnum 2), ("x", Value.vnum 2)],
        [("k", Value.vnum 2), ("x", Value.vnum 1)]] : List RowT) =
       [[("k", Value.vnum 1)], [("k", Value.vnum 2), ("x", Value.vnum 1)]] :=
  ⟨rfl, rfl, rfl, by decide⟩

/-- **C5** (amended).  For every fixed dataset, ordering, and `limit ≥ 1` —
under the OrderSpec invariant (unique column names), pairwise-distinct
order keys, rows that carry the order columns, and a page N produced by a
call whose cursor is absent, the falsy empty string, or a cursor the
paginator itself generated from a row of the dataset — if page N carries a
`nextCursor`, then paginating forward from it yields a page with a
`prevCursor`, and paginating backward from that `prevCursor` returns a page
whose item sequence equals page N's item sequence. -/
theorem C5_forward_backward_roundtrip (db : List RowT) (obc : List OrderByClause)
    (cf : List (RowT → Bool)) (l0 : Option Int) (limit : Int) (c₀ : CursorArg)
    (hobc : obc ≠ []) (hnd : (obc.map (fun cl => cl.column)).Nodup)
    (hkeys : nodupKeys obc (dataset db cf))
    (hstable : ∀ r ∈ dataset db cf, ∀ cl ∈ obc, rowGet r cl.column ≠ Value.vundef)
    (hlim : 1 ≤ limit)
    (hc₀ : c₀ = CursorArg.none ∨ c₀ = CursorArg.empty ∨
      ∃ r0 b, r0 ∈ dataset db cf ∧
        c₀ = .json (genCursor (convertOrderByToColumns obc) r0 b))
    (pageN : CursorPage) (qfN : Builder)
    (hN : cursorPaginate db ⟨obc, cf, l0⟩ limit c₀ = .ok (pageN, qfN))
    (c : Json) (hnext : pageN.nextCursor = some c) :
    ∀ pageM qfM,
      cursorPaginate db ⟨obc, cf, l0⟩ limit (.json c) = .ok (pageM, qfM) →
      ∃ p, pageM.prevCursor = some p ∧
        ∀ pageB qfB,
          cursorPaginate db ⟨obc, cf, l0⟩ limit (.json p) = .ok (pageB, qfB) →
          pageB.items = pageN.items := by
  refine paginate_back_reconstructs db obc cf l0 limit hobc hnd hkeys hstable hlim
    ?_ hnext
  rcases hc₀ with rfl | rfl | ⟨r0, b, hr0, rfl⟩
  · rw [paginate_none_shape db obc cf l0 limit _ hobc (Or.inl rfl) hlim] at hN
    cases hN
    exact blockOf_pageOfNone _ limit _ hlim hnext
  · rw [paginate_none_shape db obc cf l0 limit _ hobc (Or.inr rfl) hlim] at hN
    cases hN
    exact blockOf_pageOfNone _ limit _ hlim hnext
  · have hr0S : r0 ∈ sortRows obc (dataset db cf) :=
      (sortRows_perm obc (dataset db cf)).mem_iff.mpr hr0
    obtain ⟨A, B, hS⟩ := List.append_of_mem hr0S
    have hst : ∀ cl ∈ obc, rowGet r0 cl.column ≠ Value.vundef := hstable r0 hr0
    cases b
    · rw [paginate_bwd_shape db obc cf l0 limit hobc hnd hkeys hst hlim hS] at hN
      cases hN
      exact blockOf_pageOfBwd _ limit hS hlim hnext
    · rw [paginate_fwd_shape db obc cf l0 limit hobc hnd hkeys hst hlim hS] at hN
      cases hN
      exact blockOf_pageOfFwd _ limit hS hlim hnext

/-- Witness for the amended C5 at the concrete three-row dataset ordered
`t desc, id desc` with limit 2: page 1 is `[{id:5},{id:4}]`, paginating
forward from its next-cursor gives `[{id:3}]` with a prev-cursor, and
paginating backward from that prev-cursor returns `[{id:5},{id:4}]`
again. -/
theorem C5_forward_backward_roundtrip_witness :
    ∃ p,
      (CursorPage.mk [[("id", Value.vnum 3), ("t", Value.vnum 9)]]
          Option.none
          (some (genCursor [("t", Direction.desc), ("id", Direction.desc)]
            [("id", Value.vnum 3), ("t", Value.vnum 9)] false))).prevCursor
        = some p ∧
      ∀ pageB qfB,
        cursorPaginate
            [[("id", Value.vnum 3), ("t", Value.vnum 9)],
             [("id", Value.vnum 5), ("t", Value.vnum 10)],
             [("id", Value.vnum 4), ("t", Value.vnum 10)]]
            ⟨[⟨"t", Direction.desc⟩, ⟨"id", Direction.desc⟩], [], Option.none⟩ 2
            (.json p) = .ok (pageB, qfB) →
        pageB.items =
          (CursorPage.mk
            [[("id", Value.vnum 5), ("t", Value.vnum 10)],
             [("id", Value.vnum 4), ("t", Value.vnum 10)]]
            (some (genCursor [("t", Direction.desc), ("id", Direction.desc)]
              [("id", Value.vnum 4), ("t", Value.vnum 10)] true))
            Option.none).items :=
  C5_forward_backward_roundtrip
    [[("id", Value.vnum 3), ("t", Value.vnum 9)],
     [("id", Value.vnum 5), ("t", Value.vnum 10)],
     [("id", Value.vnum 4), ("t", Value.vnum 10)]]
    [⟨"t", Direction.desc⟩, ⟨"id", Direction.desc⟩] [] Option.none 2
    CursorArg.none
    (by decide) (by decide) (by unfold nodupKeys; decide)
    (by decide) (by decide) (Or.inl rfl)
    (CursorPage.mk
      [[("id", Value.vnum 5), ("t", Value.vnum 10)],
       [("id", Value.vnum 4), ("t", Value.vnum 10)]]
      (some (genCursor [("t", Direction.desc), ("id", Direction.desc)]
        [("id", Value.vnum 4), ("t", Value.vnum 10)] true))
      Option.none)
    ⟨[⟨"t", Direction.desc⟩, ⟨"id", Direction.desc⟩], [], some 3⟩
    rfl
    (genCursor [("t", Direction.desc), ("id", Direction.desc)]
      [("id", Value.vnum 4), ("t", Value.vnum 10)] true)
    rfl
    (CursorPage.mk [[("id", Value.vnum 3), ("t", Value.vnum 9)]]
      Option.none
      (some (genCursor [("t", Direction.desc), ("id", Direction.desc)]
        [("id", Value.vnum 3), ("t", Value.vnum 9)] false)))
    ⟨[⟨"t", Direction.desc⟩, ⟨"id", Direction.desc⟩],
     [applyCursorConditions true [("t", Direction.desc), ("id", Direction.desc)]
       [Value.vnum 10, Value.vnum 4]],
     some 3⟩
    rfl

end CursorPag
